import Mathlib

/-!
# Soft-decision Viterbi decoder (`src/src/viterbi.c`)

A shallow embedding of the decoder driver of `viterbi.c` and properties of it.

Conventions of the embedding.

* C `int` values are `Int`; `unsigned` values are `Nat` below `2^32`, and every
  unsigned operation that can leave that range is reduced `% 2^32`.
* A pointer to a buffer is a total function from offsets to cell contents
  (`Nat → Int` for `int8_t` / `int16_t` / `int` cells, `Nat → Nat` for `uint8_t`
  cells).  A store through a pointer is a pointwise update.  Contents of a
  freshly allocated block are whatever the allocator returned; they are inputs
  of the model (`Env`).
* The six branch-metric kernels `gen_metrics_k*_n*` are only declared in
  `viterbi.c`; they are parameters of the model (`Env`).
* `struct osmo_conv_code` and `enum osmo_conv_term` come from
  `<osmocom/core/conv.h>`; only the fields read by `viterbi.c` are kept.
* A call that can dereference a `NULL` pointer returns `Except fault _`.  The one
  place where the code does so is `free_vdec`, which reads `dec->paths[0]`
  without testing `dec->paths`; `alloc_vdec` reaches it from its label `fail`.
* Loops are folds over their index range (`for_up`, `for_down`); a loop left by
  `break` is a `List.find?` over its index range.
-/

namespace Viterbi

/-! ## Constants of the C environment -/

/-- The constant `INT8_MAX` of `<stdint.h>`. -/
def INT8_MAX : Int := 127

/-- The constant `INT16_MAX` of `<stdint.h>`. -/
def INT16_MAX : Int := 32767

/-- The constant `EFAULT` of `<errno.h>` (Linux value). -/
def EFAULT : Int := 14

/-- The constant `EINVAL` of `<errno.h>` (Linux value). -/
def EINVAL : Int := 22

/-- The constant `EPROTO` of `<errno.h>` (Linux value). -/
def EPROTO : Int := 71

/-- Conversion of an `int` to `unsigned` (32 bit): reduction modulo `2^32`. -/
def to_unsigned (x : Int) : Nat := (x % 4294967296).toNat

/-- Conversion of an `unsigned` to `int` (two's complement, 32 bit). -/
def to_int (u : Nat) : Int :=
  if u % 4294967296 < 2147483648 then ((u % 4294967296 : Nat) : Int)
  else ((u % 4294967296 : Nat) : Int) - 4294967296

/-- Conversion of an integer value to `int16_t` (two's complement wrap). -/
def to_int16 (x : Int) : Int := (x + 32768) % 65536 - 32768

/-- Conversion of an unsigned value to `uint8_t`. -/
def to_uint8 (u : Nat) : Nat := u % 256

/-! ## The code descriptor -/

/-- Termination modes, `enum osmo_conv_term`. -/
inductive osmo_conv_term where
  | CONV_TERM_FLUSH
  | CONV_TERM_TRUNCATION
  | CONV_TERM_TAIL_BITING
  deriving DecidableEq, Repr

open osmo_conv_term

/-- The fields of `struct osmo_conv_code` that the decoder reads.
`next_output` is the table `uint8_t (*)[2]`, `next_term_output` and `puncture`
are pointers that may be `NULL` (`none`). -/
structure osmo_conv_code where
  N : Int
  K : Int
  len : Int
  term : osmo_conv_term
  next_output : Nat → Nat → Nat
  next_term_output : Option (Nat → Nat)
  puncture : Option (Nat → Int)

/-- Accessor `conv_code_recursive`. -/
def conv_code_recursive (code : osmo_conv_code) : Int :=
  if code.next_term_output.isSome then 1 else 0

/-! ## Shift-register helpers -/

/-- The mask chosen by `vstate_lshift` for constraint length `k`. -/
def lshift_mask (k : Int) : Nat :=
  if k = 5 then 0x0e else if k = 7 then 0x3e else 0

/-- Function `vstate_lshift`: left shift and mask for finding the previous state. -/
def vstate_lshift (reg : Nat) (k : Int) (val : Int) : Nat :=
  (((reg <<< 1) % 4294967296) &&& lshift_mask k) ||| to_unsigned val

/-- Function `bitswap2`. -/
def bitswap2 (v : Nat) : Nat :=
  ((v &&& 0x02) >>> 1) ||| (((v &&& 0x01) <<< 1) % 4294967296)

/-- Function `bitswap3`. -/
def bitswap3 (v : Nat) : Nat :=
  ((v &&& 0x04) >>> 2) ||| ((v &&& 0x02) >>> 0) |||
    (((v &&& 0x01) <<< 2) % 4294967296)

/-- Function `bitswap4`. -/
def bitswap4 (v : Nat) : Nat :=
  ((v &&& 0x08) >>> 3) ||| ((v &&& 0x04) >>> 1) |||
    (((v &&& 0x02) <<< 1) % 4294967296) ||| (((v &&& 0x01) <<< 3) % 4294967296)

/-- Function `bitswap5`. -/
def bitswap5 (v : Nat) : Nat :=
  ((v &&& 0x10) >>> 4) ||| ((v &&& 0x08) >>> 2) ||| ((v &&& 0x04) >>> 0) |||
    (((v &&& 0x02) <<< 2) % 4294967296) ||| (((v &&& 0x01) <<< 4) % 4294967296)

/-- Function `bitswap6`. -/
def bitswap6 (v : Nat) : Nat :=
  ((v &&& 0x20) >>> 5) ||| ((v &&& 0x10) >>> 3) ||| ((v &&& 0x08) >>> 1) |||
    (((v &&& 0x04) <<< 1) % 4294967296) ||| (((v &&& 0x02) <<< 3) % 4294967296) |||
    (((v &&& 0x01) <<< 5) % 4294967296)

/-- Function `bitswap`: the `switch` over the width `n`. -/
def bitswap (v n : Nat) : Nat :=
  if n = 1 then v
  else if n = 2 then bitswap2 v
  else if n = 3 then bitswap3 v
  else if n = 4 then bitswap4 v
  else if n = 5 then bitswap5 v
  else if n = 6 then bitswap6 v
  else 0

/-! ## Buffers and loops -/

/-- The buffer seen through the pointer `&m[off]`. -/
def mem_at {α : Type} (m : Nat → α) (off : Nat) : Nat → α :=
  fun j => m (off + j)

/-- The buffer `m` after the cells seen through `&m[off]` were replaced by `v`. -/
def mem_put {α : Type} (m : Nat → α) (off : Nat) (v : Nat → α) : Nat → α :=
  fun a => if off ≤ a then v (a - off) else m a

/-- The buffer `m` after the store `m[i] = x`. -/
def store {α : Type} (m : Nat → α) (i : Nat) (x : α) : Nat → α :=
  fun a => if a = i then x else m a

/-- The loop `for (i = 0; i < n; i++) body` acting on a state. -/
def for_up {σ : Type} (n : Int) (body : Nat → σ → σ) (s : σ) : σ :=
  (List.range n.toNat).foldl (fun st i => body i st) s

/-- The loop `for (i = hi - 1; i >= lo; i--) body` acting on a state. -/
def for_down {σ : Type} (hi lo : Int) (body : Int → σ → σ) (s : σ) : σ :=
  (((List.range (hi - lo).toNat).reverse).map (fun d => lo + (d : Int))).foldl
    (fun st i => body i st) s

/-! ## Trellis construction -/

/-- Trellis state, `struct vstate` (`prev0`, `prev1` are `prev[0]`, `prev[1]`). -/
structure vstate where
  state : Nat
  prev0 : Nat
  prev1 : Nat

/-- Trellis object, `struct vtrellis`. -/
structure vtrellis where
  num_states : Int
  sums : Nat → Int
  outputs : Nat → Int
  vals : Nat → Nat

/-- Function `gen_output`: non-recursive state output from the generator table. -/
def gen_output (state : vstate) (val : Nat) (code : osmo_conv_code) : Nat :=
  let prev := bitswap state.prev0 (to_unsigned (code.K - 1))
  let out := code.next_output prev val
  bitswap out (to_unsigned code.N)

/-- Macro `BIT2NRZ(REG,N)`, that is `(((REG >> N) & 0x01) * 2 - 1) * -1`, evaluated
on an `unsigned` register (arithmetic modulo `2^32`). -/
def BIT2NRZ (reg : Nat) (n : Nat) : Nat :=
  (((((reg >>> n) &&& 0x01) * 2 + 4294967296 - 1) % 4294967296) * to_unsigned (-1))
    % 4294967296

/-- The loop `for (i = 0; i < code->N; i++) output[i] = BIT2NRZ(out, i);`
storing into `int16_t` cells. -/
def unpack_nrz (N : Int) (out : Nat) (output : Nat → Int) : Nat → Int :=
  for_up N (fun i o => store o i (to_int16 (BIT2NRZ out i))) output

/-- Function `gen_state_info`: returns the return code, the value stored in `*val`
and the contents of `output` afterwards. -/
def gen_state_info (reg : Nat) (output : Nat → Int) (code : osmo_conv_code) :
    Int × Nat × (Nat → Int) :=
  let state : vstate :=
    { state := reg, prev0 := vstate_lshift reg code.K 0, prev1 := vstate_lshift reg code.K 1 }
  let val := to_uint8 ((reg >>> (code.K - 2).toNat) &&& 0x01)
  let out := gen_output state val code
  (0, val, unpack_nrz code.N out output)

/-- Function `gen_recursive_output`: returns the output word and the value stored
in `*val`.  The table `next_term_output` is read only for recursive descriptors. -/
def gen_recursive_output (state : vstate) (reg : Nat) (code : osmo_conv_code) (pos : Int) :
    Nat × Nat :=
  let prev := vstate_lshift reg code.K 0
  let prev := bitswap prev (to_unsigned (code.K - 1))
  let val0 : Int := (((reg >>> (code.K - 2).toNat) &&& 0x01 : Nat) : Int)
  let val1 : Int :=
    match code.next_term_output with
    | some t => ((((t prev) >>> pos.toNat) &&& 0x01 : Nat) : Int)
    | none => 0
  let val : Nat := if val0 = val1 then 0 else 1
  let prev := bitswap state.prev0 (to_unsigned (code.K - 1))
  let out := code.next_output prev val
  (bitswap out (to_unsigned code.N), val)

/-- Macro `NUM_STATES(K)`. -/
def NUM_STATES (K : Int) : Int := if K = 7 then 64 else 16

/-- The inner loop of the search in `gen_recursive_state_info`: the value of `j`
when the loop over the states ends (`ns` when no `break` was taken). -/
def recursive_scan (code : osmo_conv_code) (ns : Int) (i : Nat) : Int :=
  match (List.range ns.toNat).find? (fun j => ((code.next_output j 0) >>> i) &&& 0x01 != 0) with
  | some j => (j : Int)
  | none => ns

/-- The loop nest "find recursive bit location" of `gen_recursive_state_info`:
the final value of `pos` (initially `-1`). -/
def recursive_pos (code : osmo_conv_code) : Int :=
  let ns := NUM_STATES code.K
  match (List.range code.N.toNat).find? (fun i => recursive_scan code ns i == ns) with
  | some i => (i : Int)
  | none => -1

/-- Function `gen_recursive_state_info`: takes the current contents of `*val` and
`output`, returns the return code and the contents afterwards. -/
def gen_recursive_state_info (val : Nat) (reg : Nat) (output : Nat → Int)
    (code : osmo_conv_code) : Int × Nat × (Nat → Int) :=
  let state : vstate :=
    { state := reg, prev0 := vstate_lshift reg code.K 0, prev1 := vstate_lshift reg code.K 1 }
  let pos := recursive_pos code
  if pos < 0 then (-EPROTO, val, output)
  else
    let r := gen_recursive_output state reg code pos
    (0, r.2, unpack_nrz code.N r.1 output)

/-- Signature of a branch-metric kernel
`void f(const int8_t *seq, const int16_t *out, int16_t *sums, int16_t *paths, int norm)`:
from the buffers behind the four pointers and `norm` to the contents of `sums` and
of `paths` afterwards. -/
abbrev Kernel : Type :=
  (Nat → Int) → (Nat → Int) → (Nat → Int) → (Nat → Int) → Int → (Nat → Int) × (Nat → Int)

/-- What the decoder takes from its environment: the six kernels, and the blocks
returned by the allocator (`none` is a `NULL` result of `vdec_malloc` where the
code checks for it; the contents of a block are its uninitialised contents). -/
structure Env where
  gen_metrics_k5_n2 : Kernel
  gen_metrics_k5_n3 : Kernel
  gen_metrics_k5_n4 : Kernel
  gen_metrics_k7_n2 : Kernel
  gen_metrics_k7_n3 : Kernel
  gen_metrics_k7_n4 : Kernel
  sums_block : Option (Nat → Int)
  outputs_block : Option (Nat → Int)
  vals_block : Nat → Nat
  paths_block : Nat → Int
  depunc_block : Nat → Int

/-- State of the loop "populate the trellis state objects" of `generate_trellis`. -/
structure trellis_fill where
  rc : Int
  vals : Nat → Nat
  outputs : Nat → Int

/-- One iteration of the loop of `generate_trellis`. -/
def trellis_fill_step (code : osmo_conv_code) (recursive : Int) (olen : Int) (i : Nat)
    (st : trellis_fill) : trellis_fill :=
  let off := (olen * (i : Int)).toNat
  let outputs := mem_at st.outputs off
  let r :=
    if recursive ≠ 0 then gen_recursive_state_info (st.vals i) i outputs code
    else gen_state_info i outputs code
  { rc := r.1, vals := store st.vals i r.2.1, outputs := mem_put st.outputs off r.2.2 }

/-- Function `generate_trellis`: `none` is the `NULL` result. -/
def generate_trellis (env : Env) (code : osmo_conv_code) : Option vtrellis :=
  let ns := NUM_STATES code.K
  let recursive := conv_code_recursive code
  let olen : Int := if code.N = 2 then 2 else 4
  match env.sums_block, env.outputs_block with
  | some sums, some outputs =>
    let st := for_up ns (trellis_fill_step code recursive olen)
      { rc := -1, vals := env.vals_block, outputs := outputs }
    if st.rc < 0 then none
    else some { num_states := ns, sums := sums, outputs := st.outputs, vals := st.vals }
  | _, _ => none

/-! ## The decoder object -/

/-- Viterbi decoder, `struct vdecoder`.  `paths i` is the pointer `paths[i]`, kept
as an offset into the block `paths[0]` whose contents are `paths_mem`.  The field
`punc` of the C structure is never assigned nor read and is left out. -/
structure vdecoder where
  n : Int
  k : Int
  len : Int
  recursive : Int
  intrvl : Int
  trellis : vtrellis
  paths : Nat → Nat
  paths_mem : Nat → Int
  metric_func : Kernel

/-- The kernel selection of `alloc_vdec` (`none` is the jump to `fail`). -/
def select_metric_func (env : Env) (k n : Int) : Option Kernel :=
  if k = 5 then
    if n = 2 then some env.gen_metrics_k5_n2
    else if n = 3 then some env.gen_metrics_k5_n3
    else if n = 4 then some env.gen_metrics_k5_n4
    else none
  else if k = 7 then
    if n = 2 then some env.gen_metrics_k7_n2
    else if n = 3 then some env.gen_metrics_k7_n3
    else if n = 4 then some env.gen_metrics_k7_n4
    else none
  else none

/-- Undefined behaviour the decoder can run into. -/
inductive fault where
  | null_deref
  deriving DecidableEq, Repr

/-- Function `free_vdec` on a decoder that is not `NULL`, given its field `paths`
(`none` is a `NULL` pointer): the first statement `free(dec->paths[0])` reads
through `dec->paths`.  The calls of `free` themselves have no effect on the
model. -/
def free_vdec (paths : Option (Nat → Nat)) : Except fault Unit :=
  match paths with
  | none => Except.error fault.null_deref
  | some _ => Except.ok ()

/-- The label `fail` of `alloc_vdec`: `free_vdec(dec); return NULL;`.  Every jump
to it happens before `dec->paths` is assigned, so the field still has the `NULL`
value given by `calloc`. -/
def alloc_vdec_fail : Except fault (Option vdecoder) :=
  match free_vdec none with
  | Except.ok _ => Except.ok none
  | Except.error e => Except.error e

/-- Function `alloc_vdec`: `Except.ok none` is the `NULL` result. -/
def alloc_vdec (env : Env) (code : osmo_conv_code) : Except fault (Option vdecoder) :=
  let ns := NUM_STATES code.K
  let n := code.N
  let k := code.K
  let recursive := conv_code_recursive code
  let intrvl := Int.tdiv INT16_MAX (n * INT8_MAX) - k
  match select_metric_func env k n with
  | none => alloc_vdec_fail
  | some metric_func =>
    let len := if code.term = CONV_TERM_FLUSH then code.len + code.K - 1 else code.len
    match generate_trellis env code with
    | none => alloc_vdec_fail
    | some trellis =>
      Except.ok (some { n := n, k := k, len := len, recursive := recursive, intrvl := intrvl,
                        trellis := trellis, paths := fun i => i * ns.toNat,
                        paths_mem := env.paths_block, metric_func := metric_func })

/-- Function `reset_decoder`. -/
def reset_decoder (dec : vdecoder) (term : osmo_conv_term) : vdecoder :=
  let ns := dec.trellis.num_states
  let sums : Nat → Int := fun s => if (s : Int) < ns then 0 else dec.trellis.sums s
  let sums :=
    if term ≠ CONV_TERM_TAIL_BITING then store sums 0 (to_int16 (INT8_MAX * dec.n * dec.k))
    else sums
  { dec with trellis := { dec.trellis with sums := sums } }

/-- The store `out[i] = path ^ vals[state]` or `out[i] = vals[state]` and the state
update shared by `_traceback` and `_traceback_rec`: state of the loop. -/
structure tb_state where
  state : Nat
  out : Nat → Nat

/-- The value `path = dec->paths[i][state] + 1` (an `unsigned`). -/
def tb_path (dec : vdecoder) (i : Int) (state : Nat) : Nat :=
  to_unsigned (dec.paths_mem (dec.paths i.toNat + state) + 1)

/-- Function `_traceback`. -/
def _traceback (dec : vdecoder) (state : Nat) (out : Nat → Nat) (len : Int) : Nat → Nat :=
  (for_down len 0 (fun i st =>
    let path := tb_path dec i st.state
    { state := vstate_lshift st.state dec.k (to_int path),
      out := store st.out i.toNat (to_uint8 (dec.trellis.vals st.state)) })
    { state := state, out := out : tb_state }).out

/-- Function `_traceback_rec`. -/
def _traceback_rec (dec : vdecoder) (state : Nat) (out : Nat → Nat) (len : Int) : Nat → Nat :=
  (for_down len 0 (fun i st =>
    let path := tb_path dec i st.state
    { state := vstate_lshift st.state dec.k (to_int path),
      out := store st.out i.toNat (to_uint8 (path ^^^ dec.trellis.vals st.state)) })
    { state := state, out := out : tb_state }).out

/-- State of the search for the largest accumulated sum in `traceback`. -/
structure tb_max where
  max : Int
  state : Nat

/-- The search loop of `traceback` over the accumulated sums. -/
def traceback_max (dec : vdecoder) : tb_max :=
  for_up dec.trellis.num_states (fun i st =>
    let sum := dec.trellis.sums i
    if sum > st.max then { max := sum, state := i } else st)
    { max := -1, state := 0 }

/-- The loop of `traceback` over the columns `dec->len - 1` down to `len`. -/
def traceback_tail (dec : vdecoder) (state : Nat) (len : Int) : Nat :=
  for_down dec.len len (fun i st =>
    let path := tb_path dec i st
    vstate_lshift st dec.k (to_int path)) state

/-- Function `traceback`: return code and contents of `out` afterwards. -/
def traceback (dec : vdecoder) (out : Nat → Nat) (term : osmo_conv_term) (len : Int) :
    Int × (Nat → Nat) :=
  let found : tb_max :=
    if term ≠ CONV_TERM_FLUSH then traceback_max dec else { max := -1, state := 0 }
  if term ≠ CONV_TERM_FLUSH ∧ found.max < 0 then (-EPROTO, out)
  else
    let state := traceback_tail dec found.state len
    if dec.recursive ≠ 0 then (0, _traceback_rec dec state out len)
    else (0, _traceback dec state out len)

/-! ## Depuncturing and the forward recursion -/

/-- State of the loop of `depuncture`: the counters `n`, `m` and the buffer `out`. -/
structure depunc_state where
  n : Nat
  m : Nat
  out : Nat → Int

/-- One iteration of the loop of `depuncture`. -/
def depuncture_step (inp : Nat → Int) (punc : Nat → Int) (i : Nat) (st : depunc_state) :
    depunc_state :=
  if (i : Int) = punc st.n then
    { n := st.n + 1, m := st.m, out := store st.out i 0 }
  else
    { n := st.n, m := st.m + 1, out := store st.out i (inp st.m) }

/-- The loop of `depuncture`. -/
def depuncture_loop (inp : Nat → Int) (punc : Nat → Int) (out : Nat → Int) (len : Int) :
    depunc_state :=
  for_up len (depuncture_step inp punc) { n := 0, m := 0, out := out }

/-- Function `depuncture`: return code and contents of `out` afterwards. -/
def depuncture (inp : Nat → Int) (punc : Nat → Int) (out : Nat → Int) (len : Int) :
    Int × (Nat → Int) :=
  (0, (depuncture_loop inp punc out len).out)

/-- One iteration of the loop of `_conv_decode`: the kernel call for column `i`. -/
def conv_decode_step (seq : Nat → Int) (i : Nat) (dec : vdecoder) : vdecoder :=
  let r := dec.metric_func (mem_at seq (dec.n * (i : Int)).toNat) dec.trellis.outputs
    dec.trellis.sums (mem_at dec.paths_mem (dec.paths i))
    (if Int.tmod (i : Int) dec.intrvl = 0 then 1 else 0)
  { dec with trellis := { dec.trellis with sums := r.1 },
             paths_mem := mem_put dec.paths_mem (dec.paths i) r.2 }

/-- Function `_conv_decode`: the forward trellis recursion (the argument `_cnt`
is unused). -/
def _conv_decode (dec : vdecoder) (seq : Nat → Int) : vdecoder :=
  for_up dec.len (conv_decode_step seq) dec

/-- Function `conv_decode`: return code and contents of `out` afterwards.  The
array `depunc` starts with the contents `env.depunc_block`. -/
def conv_decode (env : Env) (dec : vdecoder) (seq : Nat → Int) (punc : Option (Nat → Int))
    (out : Nat → Nat) (len : Int) (term : osmo_conv_term) : Int × (Nat → Nat) :=
  let dec := reset_decoder dec term
  let seq :=
    match punc with
    | some p => (depuncture seq p env.depunc_block (dec.len * dec.n)).2
    | none => seq
  let dec := _conv_decode dec seq
  let dec := if term = CONV_TERM_TAIL_BITING then _conv_decode dec seq else dec
  traceback dec out term len

/-- Function `test_conv_decode`: return code and contents of `output` afterwards,
or the undefined behaviour met on the way. -/
def test_conv_decode (env : Env) (code : osmo_conv_code) (input : Nat → Int)
    (output : Nat → Nat) : Except fault (Int × (Nat → Nat)) :=
  if code.N < 2 ∨ code.N > 4 ∨ code.len < 1 ∨ (code.K ≠ 5 ∧ code.K ≠ 7) then
    Except.ok (-EINVAL, output)
  else
    match alloc_vdec env code with
    | Except.error e => Except.error e
    | Except.ok none => Except.ok (-EFAULT, output)
    | Except.ok (some vdec) =>
      let rc := conv_decode env vdec input code.puncture output code.len code.term
      match free_vdec (some vdec.paths) with
      | Except.ok _ => Except.ok rc
      | Except.error e => Except.error e

/-- The code returned by a call, when it returns. -/
def returned_code {β : Type} (r : Except fault (Int × β)) : Option Int :=
  match r with
  | Except.ok p => some p.1
  | Except.error _ => none

/-! ## Predicates of the specification and sample inputs -/

/-- Bit `i` of `next_output[j][0]` is zero for every state `j` below `NUM_STATES(K)`. -/
def systematic_at (code : osmo_conv_code) (i : Nat) : Prop :=
  ∀ j : Nat, (j : Int) < NUM_STATES code.K → (code.next_output j 0).testBit i = false

/-- Some bit position below `N` is zero in `next_output[j][0]` for every state `j`. -/
def has_systematic_pos (code : osmo_conv_code) : Prop :=
  ∃ i : Nat, (i : Int) < code.N ∧ systematic_at code i

/-- A kernel that leaves the sums and the path column as they are. -/
def idle_kernel : Kernel := fun _ _ sums paths _ => (sums, paths)

/-- A kernel that makes every accumulated sum `-1`. -/
def sinking_kernel : Kernel := fun _ _ _ paths _ => (fun _ => -1, paths)

/-- An environment with idle kernels and zeroed blocks. -/
def env_idle : Env :=
  { gen_metrics_k5_n2 := idle_kernel, gen_metrics_k5_n3 := idle_kernel,
    gen_metrics_k5_n4 := idle_kernel, gen_metrics_k7_n2 := idle_kernel,
    gen_metrics_k7_n3 := idle_kernel, gen_metrics_k7_n4 := idle_kernel,
    sums_block := some (fun _ => 0), outputs_block := some (fun _ => 0),
    vals_block := fun _ => 0, paths_block := fun _ => 0, depunc_block := fun _ => 0 }

/-- An environment whose kernels make every accumulated sum negative. -/
def env_sinking : Env :=
  { gen_metrics_k5_n2 := sinking_kernel, gen_metrics_k5_n3 := sinking_kernel,
    gen_metrics_k5_n4 := sinking_kernel, gen_metrics_k7_n2 := sinking_kernel,
    gen_metrics_k7_n3 := sinking_kernel, gen_metrics_k7_n4 := sinking_kernel,
    sums_block := some (fun _ => 0), outputs_block := some (fun _ => 0),
    vals_block := fun _ => 0, paths_block := fun _ => 0, depunc_block := fun _ => 0 }

/-- A descriptor with the unsupported constraint length `K = 6`. -/
def code_k6 : osmo_conv_code :=
  { N := 2, K := 6, len := 1, term := CONV_TERM_FLUSH, next_output := fun _ _ => 0,
    next_term_output := none, puncture := none }

/-- A recursive descriptor (`K = 5`, `N = 2`) whose table `next_output` has the value
`3` everywhere: no bit position is zero in every `next_output[j][0]`. -/
def code_rec_nonsys : osmo_conv_code :=
  { N := 2, K := 5, len := 1, term := CONV_TERM_FLUSH, next_output := fun _ _ => 3,
    next_term_output := some (fun _ => 0), puncture := none }

/-- A recursive descriptor (`K = 5`, `N = 2`) whose words `next_output[j][0]` are all
`1`: bit 1 is the lowest position that is zero in every one of them. -/
def code_rec_sys : osmo_conv_code :=
  { N := 2, K := 5, len := 1, term := CONV_TERM_FLUSH,
    next_output := fun _ v => if v = 0 then 1 else 2,
    next_term_output := some (fun j => j % 4), puncture := none }

/-- A non-recursive truncated descriptor (`K = 5`, `N = 2`, one information bit). -/
def code_trunc : osmo_conv_code :=
  { N := 2, K := 5, len := 1, term := CONV_TERM_TRUNCATION,
    next_output := fun j v => (j + v) % 4, next_term_output := none, puncture := none }

/-- The structure `state` filled at the top of `gen_state_info` and
`gen_recursive_state_info` for the register value `reg`. -/
def vstate_of (code : osmo_conv_code) (reg : Nat) : vstate :=
  { state := reg, prev0 := vstate_lshift reg code.K 0, prev1 := vstate_lshift reg code.K 1 }

/-- The value stored in `vals[s]` by the trellis loop when the state-info call
succeeds. -/
def trellis_val (code : osmo_conv_code) (s : Nat) : Nat :=
  if conv_code_recursive code ≠ 0 then
    (gen_recursive_output (vstate_of code s) s code (recursive_pos code)).2
  else to_uint8 ((s >>> (code.K - 2).toNat) &&& 0x01)

/-- The (bit-reversed) expected output word unpacked for state `s` by the trellis
loop when the state-info call succeeds. -/
def trellis_word (code : osmo_conv_code) (s : Nat) : Nat :=
  if conv_code_recursive code ≠ 0 then
    (gen_recursive_output (vstate_of code s) s code (recursive_pos code)).1
  else gen_output (vstate_of code s) (to_uint8 ((s >>> (code.K - 2).toNat) &&& 0x01)) code

/-- The stride `olen` of `generate_trellis`. -/
def trellis_olen (code : osmo_conv_code) : Int := if code.N = 2 then 2 else 4

/-- Specification: the mask of the "previous 0-state", `0x0e` for `K = 5` and
`0x3e` for `K = 7`. -/
def spec_mask (K : Int) : Nat := if K = 5 then 0x0e else 0x3e

/-- Specification: the "previous 0-state" `prev0 = (s << 1) & mask`. -/
def spec_prev0 (K : Int) (s : Nat) : Nat := (s <<< 1) &&& spec_mask K

/-- Specification: the table row `bitreverse(prev0, K-1)` read for state `s`. -/
def spec_row (K : Int) (s : Nat) : Nat := bitswap (spec_prev0 K s) (K - 1).toNat

/-- Specification: the information bit `val = (s >> (K-2)) & 1` of state `s`. -/
def spec_val (K : Int) (s : Nat) : Nat := (s >>> (K - 2).toNat) &&& 1

/-- Specification: the survivor input bit of a recursive code with systematic
position `p`, `val0 XOR val1` with `val1 = (next_term_output[row] >> p) & 1`. -/
def spec_rec_val (K : Int) (nto : Nat → Nat) (p : Nat) (s : Nat) : Nat :=
  spec_val K s ^^^ (((nto (spec_row K s)) >>> p) &&& 1)

/-- Specification: the number of puncture indices below `i`, `|{p in P : p < i}|`. -/
def punct_below (P : List Nat) (i : Nat) : Nat :=
  ((List.range i).filter (fun p => decide (p ∈ P))).length

/-- The buffer `punc` holds the indices of `P` followed by a negative sentinel. -/
def holds_punc (punc : Nat → Int) (P : List Nat) : Prop :=
  (∀ k, k < P.length → punc k = ((P.getD k 0 : Nat) : Int)) ∧ punc P.length < 0

/-- Specification: sample `i` of the depunctured stream, `0` at a punctured
position and the next received sample otherwise. -/
def spec_depunct (inp : Nat → Int) (P : List Nat) (i : Nat) : Int :=
  if i ∈ P then 0 else inp (i - punct_below P i)

/-- A puncture buffer holding the indices 1 and 3 and the sentinel `-1`. -/
def punc_sample : Nat → Int := fun k => if k = 0 then 1 else if k = 1 then 3 else -1

/-- A decoder for `K = 5`, `N = 2` with arbitrary sums `5, -3, 9, 9, 0, ...`. -/
def dec_sample : vdecoder :=
  { n := 2, k := 5, len := 3, recursive := 0, intrvl := 124,
    trellis := { num_states := 16,
                 sums := fun s => if s = 0 then 5 else if s = 1 then -3 else if s = 2 then 9
                   else if s = 3 then 9 else 0,
                 outputs := fun _ => 1,
                 vals := fun s => (s >>> 3) &&& 1 },
    paths := fun i => i * 16, paths_mem := fun a => if a % 2 = 0 then -1 else 0,
    metric_func := idle_kernel }

/-- The state update `state = vstate_lshift(state, dec->k, path)` with
`path = dec->paths[i][state] + 1`, shared by the three loops of the traceback. -/
def tb_step (dec : vdecoder) (i : Int) (state : Nat) : Nat :=
  vstate_lshift state dec.k (to_int (tb_path dec i state))

/-- Specification: `path = paths[i][state] + 1`. -/
def spec_path (dec : vdecoder) (i : Nat) (state : Nat) : Int :=
  dec.paths_mem (dec.paths i + state) + 1

/-- Specification: the roll-back `state = (state << 1 & mask) | path` through
column `i`. -/
def spec_prev_state (dec : vdecoder) (i : Nat) (state : Nat) : Nat :=
  ((state <<< 1) &&& spec_mask dec.k) ||| to_unsigned (spec_path dec i state)

/-- Specification: the state reached from the state `t` of column `top` after
rolling back through `d` columns. -/
def spec_back (dec : vdecoder) (t top : Nat) : Nat → Nat
  | 0 => t
  | d + 1 => spec_prev_state dec (top - (d + 1)) (spec_back dec t top d)

/-- Specification: the state `state_j` of the traceback, where `state_top = t` and
`state_j = (state_{j+1} << 1 & mask) | (paths[j][state_{j+1}] + 1)`. -/
def spec_state (dec : vdecoder) (t top j : Nat) : Nat :=
  spec_back dec t top (top - j)

/-- The terminal state chosen by `traceback`. -/
def terminal_state (dec : vdecoder) (term : osmo_conv_term) : Nat :=
  if term ≠ CONV_TERM_FLUSH then (traceback_max dec).state else 0

/-- Specification: the shift-register evolution `s_{i+1} = (s_i >> 1) | (b_i << (K-2))`
from the start state `s0` under the input bits `b`. -/
def shift_state (K : Int) (s0 : Nat) (b : Nat → Nat) : Nat → Nat
  | 0 => s0
  | i + 1 => (shift_state K s0 b i >>> 1) ||| (b i <<< (K - 2).toNat)

/-- A decoder for `K = 5` whose path memory records the register evolution from
state 0 under the bits `1, 0, 1` (states 0, 8, 4, 10). -/
def dec_shift : vdecoder :=
  { n := 2, k := 5, len := 3, recursive := 0, intrvl := 124,
    trellis := { num_states := 16, sums := fun _ => 0, outputs := fun _ => 1,
                 vals := fun s => (s >>> 3) &&& 1 },
    paths := fun i => i * 16,
    paths_mem := fun a => if a = 8 then -1 else if a = 20 then -1 else if a = 42 then -1 else 0,
    metric_func := idle_kernel }

/-- The input bits `1, 0, 1, 0, ...`. -/
def bits_101 : Nat → Nat := fun i => if i % 2 = 0 then 1 else 0

/-- The descriptor `code_rec_sys` with the word `next_output[15][0]` replaced by `3`:
the two descriptors agree on the rows below `S/2 = 8`. -/
def code_rec_hi : osmo_conv_code :=
  { N := 2, K := 5, len := 1, term := CONV_TERM_FLUSH,
    next_output := fun j v => if j = 15 then 3 else if v = 0 then 1 else 2,
    next_term_output := some (fun j => j % 4), puncture := none }

/-- The column index computed by `gen_recursive_output` for state `s`: the
comparison of `val0 = (s >> (K-2)) & 1` with the bit `pos` of
`next_term_output[row]`. -/
def rec_column (code : osmo_conv_code) (s : Nat) (pos : Int) : Nat :=
  if (((spec_val code.K s : Nat) : Nat) : Int) =
      (match code.next_term_output with
        | some t => (((((t (spec_row code.K s)) >>> pos.toNat) &&& 0x01 : Nat) : Nat) : Int)
        | none => 0)
  then 0 else 1

/-- Specification: the kernel call of column `i` of the forward pass, with the
input `seq + i*N`, the stored trellis outputs, the sums, the path column and
`norm = (i mod intrvl == 0)`. -/
def spec_column (dec : vdecoder) (seq : Nat → Int) (i : Nat) (sums col : Nat → Int) :
    (Nat → Int) × (Nat → Int) :=
  dec.metric_func (fun j => seq (i * dec.n.toNat + j)) dec.trellis.outputs sums col
    (if i % dec.intrvl.toNat = 0 then 1 else 0)

/-- Specification: the sums and the path memory after the columns `0 .. m-1` of a
forward pass that starts from the sums and the path memory of `dec`. -/
def spec_forward (dec : vdecoder) (seq : Nat → Int) : Nat → (Nat → Int) × (Nat → Int)
  | 0 => (dec.trellis.sums, dec.paths_mem)
  | m + 1 =>
    ((spec_column dec seq m (spec_forward dec seq m).1
        (fun s => (spec_forward dec seq m).2 (dec.paths m + s))).1,
      fun a => if dec.paths m ≤ a then
          (spec_column dec seq m (spec_forward dec seq m).1
            (fun s => (spec_forward dec seq m).2 (dec.paths m + s))).2 (a - dec.paths m)
        else (spec_forward dec seq m).2 a)

/-- The decoder `dec` with the sums and the path memory left by the columns
`0 .. m-1` of a forward pass. -/
def forward_pass (dec : vdecoder) (seq : Nat → Int) (m : Nat) : vdecoder :=
  { dec with trellis := { dec.trellis with sums := (spec_forward dec seq m).1 },
             paths_mem := (spec_forward dec seq m).2 }

/-- A kernel that adds the first input sample and `norm` to every sum and stores
the column number code `-1` in the first cell of the path column. -/
def probe_kernel : Kernel := fun seq _ sums paths norm =>
  (fun s => sums s + seq 0 + norm, fun s => if s = 0 then -1 else paths s)

/-- A decoder with two columns, `N = 2`, using `probe_kernel`. -/
def dec_probe : vdecoder :=
  { n := 2, k := 5, len := 2, recursive := 0, intrvl := 124,
    trellis := { num_states := 16, sums := fun _ => 0, outputs := fun _ => 1,
                 vals := fun s => (s >>> 3) &&& 1 },
    paths := fun i => i * 16, paths_mem := fun _ => 0, metric_func := probe_kernel }

/-- The sequence read by the forward pass of `conv_decode`: the depunctured copy of
`seq` when a puncture list is given, `seq` itself otherwise. -/
def decode_seq (env : Env) (dec : vdecoder) (seq : Nat → Int) (punc : Option (Nat → Int)) :
    Nat → Int :=
  match punc with
  | some p => (depuncture seq p env.depunc_block (dec.len * dec.n)).2
  | none => seq

/-! # Properties -/

/-! ## Loops -/

/-- Unfolding the last iteration of an upward loop. -/
theorem for_up_succ {σ : Type} (n : Nat) (body : Nat → σ → σ) (s : σ) :
    for_up ((n : Int) + 1) body s = body n (for_up (n : Int) body s) := by
  unfold for_up
  have h1 : ((n : Int) + 1).toNat = n + 1 := by omega
  have h2 : ((n : Int)).toNat = n := by omega
  rw [h1, h2, List.range_succ, List.foldl_append]
  rfl

/-- An upward loop with bound `0` does nothing. -/
theorem for_up_zero {σ : Type} (body : Nat → σ → σ) (s : σ) :
    for_up 0 body s = s := rfl

/-! ## Bit reversal -/

set_option maxRecDepth 100000 in
/-- Exhaustive check of the bits of `bitswap v n` on the words below `2^n`. -/
theorem bitswap_table_bits : ∀ n < 7, ∀ v < 64, (1 ≤ n ∧ v < 2 ^ n) →
    ∀ i < 6, i < n → (bitswap v n).testBit i = v.testBit (n - 1 - i) := by
  decide

set_option maxRecDepth 100000 in
/-- Exhaustive check of the range of `bitswap v n` on the words below `2^n`. -/
theorem bitswap_table_lt : ∀ n < 7, ∀ v < 64, (1 ≤ n ∧ v < 2 ^ n) → bitswap v n < 2 ^ n := by
  decide

set_option maxRecDepth 100000 in
/-- Exhaustive check that `bitswap` is an involution on the words below `2^n`. -/
theorem bitswap_table_invol : ∀ n < 7, ∀ v < 64, (1 ≤ n ∧ v < 2 ^ n) →
    bitswap (bitswap v n) n = v := by
  decide

/-- C8: for every width `n` in 1..6 and every `v < 2^n`, `bitswap v n` is the
`n`-bit reversal of `v`: bit `i` of the result is bit `n-1-i` of `v` for every
`i < n`, the result is below `2^n`, and applying `bitswap` twice gives `v` back. -/
theorem bitswap_reverses (n v : Nat) (hn1 : 1 ≤ n) (hn6 : n ≤ 6) (hv : v < 2 ^ n) :
    (∀ i, i < n → (bitswap v n).testBit i = v.testBit (n - 1 - i)) ∧
      bitswap v n < 2 ^ n ∧ bitswap (bitswap v n) n = v := by
  have hv64 : v < 64 :=
    lt_of_lt_of_le hv (by
      calc 2 ^ n ≤ 2 ^ 6 := Nat.pow_le_pow_right (by decide) hn6
        _ = 64 := by norm_num)
  have hn7 : n < 7 := by omega
  exact ⟨fun i hi => bitswap_table_bits n hn7 v hv64 ⟨hn1, hv⟩ i (by omega) hi,
    bitswap_table_lt n hn7 v hv64 ⟨hn1, hv⟩, bitswap_table_invol n hn7 v hv64 ⟨hn1, hv⟩⟩

/-- Witness of `bitswap_reverses`: the 5-bit word `0b00110` reversed is `0b01100`. -/
theorem bitswap_reverses_witness :
    (1 ≤ 5 ∧ 5 ≤ 6 ∧ 6 < 2 ^ 5) ∧ bitswap 6 5 = 12 ∧
    ((∀ i, i < 5 → (bitswap 6 5).testBit i = (6 : Nat).testBit (5 - 1 - i)) ∧
      bitswap 6 5 < 2 ^ 5 ∧ bitswap (bitswap 6 5) 5 = 6) :=
  ⟨by decide, by decide, bitswap_reverses 5 6 (by decide) (by decide) (by decide)⟩

/-! ## The search for the systematic bit position -/

/-- The test `(x >> i) & 0x01` of the code is the bit `i` of `x`. -/
theorem shift_and_one_ne_zero (x i : Nat) :
    ((x >>> i) &&& 0x01 != 0) = x.testBit i := by
  unfold Nat.testBit
  rw [Nat.and_comm]

/-- The inner scan reaches `ns` exactly when bit `i` is zero in every row. -/
theorem recursive_scan_eq_iff (code : osmo_conv_code) (i : Nat) :
    recursive_scan code (NUM_STATES code.K) i = NUM_STATES code.K ↔ systematic_at code i := by
  unfold recursive_scan systematic_at
  cases h : (List.range (NUM_STATES code.K).toNat).find?
      (fun j => ((code.next_output j 0) >>> i) &&& 0x01 != 0) with
  | none =>
    simp only [true_iff]
    intro j hj
    rw [List.find?_eq_none] at h
    have := h j (List.mem_range.mpr (by omega))
    rw [shift_and_one_ne_zero] at this
    simpa using this
  | some j =>
    rw [List.find?_range_eq_some] at h
    obtain ⟨hp, hmem, _⟩ := h
    rw [List.mem_range] at hmem
    rw [shift_and_one_ne_zero] at hp
    constructor
    · intro he
      dsimp only at he
      omega
    · intro hall
      have := hall j (by omega)
      rw [hp] at this
      exact absurd this (by decide)

/-- The search leaves `pos` negative exactly when no position is systematic. -/
theorem recursive_pos_neg_iff (code : osmo_conv_code) :
    recursive_pos code < 0 ↔ ¬ has_systematic_pos code := by
  unfold recursive_pos has_systematic_pos
  dsimp only
  cases h : (List.range code.N.toNat).find?
      (fun i => recursive_scan code (NUM_STATES code.K) i == NUM_STATES code.K) with
  | none =>
    rw [List.find?_eq_none] at h
    simp only [Int.reduceNeg, Int.reduceLT, true_iff]
    rintro ⟨i, hi, hs⟩
    have := h i (List.mem_range.mpr (by omega))
    rw [beq_iff_eq, recursive_scan_eq_iff] at this
    exact this hs
  | some i =>
    rw [List.find?_range_eq_some] at h
    obtain ⟨hp, hmem, _⟩ := h
    rw [List.mem_range] at hmem
    rw [beq_iff_eq, recursive_scan_eq_iff] at hp
    constructor
    · intro hlt
      dsimp only at hlt
      omega
    · intro hno
      exact absurd ⟨i, by omega, hp⟩ hno

/-- When a systematic position exists the search returns the lowest one. -/
theorem recursive_pos_lowest (code : osmo_conv_code) (h : has_systematic_pos code) :
    ∃ p : Nat, recursive_pos code = (p : Int) ∧ (p : Int) < code.N ∧ systematic_at code p ∧
      ∀ i, i < p → ¬ systematic_at code i := by
  have hn := (not_congr (recursive_pos_neg_iff code)).mpr (not_not.mpr h)
  unfold recursive_pos at hn ⊢
  dsimp only at hn ⊢
  cases hf : (List.range code.N.toNat).find?
      (fun i => recursive_scan code (NUM_STATES code.K) i == NUM_STATES code.K) with
  | none =>
    rw [hf] at hn
    exact absurd (by decide) hn
  | some p =>
    rw [List.find?_range_eq_some] at hf
    obtain ⟨hp, hmem, hlow⟩ := hf
    rw [List.mem_range] at hmem
    rw [beq_iff_eq, recursive_scan_eq_iff] at hp
    refine ⟨p, rfl, by omega, hp, ?_⟩
    intro i hi hs
    have := hlow i hi
    rw [← recursive_scan_eq_iff] at hs
    simp [hs] at this

/-- The return code of `gen_recursive_state_info` is decided by the search alone. -/
theorem gen_recursive_state_info_rc (val reg : Nat) (output : Nat → Int) (code : osmo_conv_code) :
    (gen_recursive_state_info val reg output code).1 =
      if recursive_pos code < 0 then -EPROTO else 0 := by
  unfold gen_recursive_state_info
  dsimp only
  by_cases h : recursive_pos code < 0
  · rw [if_pos h, if_pos h]
  · rw [if_neg h, if_neg h]

/-- The macro `NUM_STATES` is positive. -/
theorem NUM_STATES_pred (K : Int) : ∃ n : Nat, NUM_STATES K = (n : Int) + 1 := by
  unfold NUM_STATES
  by_cases h : K = 7
  · rw [if_pos h]; exact ⟨63, rfl⟩
  · rw [if_neg h]; exact ⟨15, rfl⟩

/-- For a recursive code the loop of `generate_trellis` ends with the return code of the search. -/
theorem trellis_fill_rc_recursive (code : osmo_conv_code) (recursive olen : Int)
    (hr : recursive ≠ 0) (st : trellis_fill) :
    (for_up (NUM_STATES code.K) (trellis_fill_step code recursive olen) st).rc =
      if recursive_pos code < 0 then -EPROTO else 0 := by
  obtain ⟨n, hn⟩ := NUM_STATES_pred code.K
  rw [hn, for_up_succ]
  unfold trellis_fill_step
  dsimp only
  rw [if_pos hr]
  exact gen_recursive_state_info_rc _ _ _ _

/-- With both blocks allocated, `generate_trellis` fails on a recursive code exactly when no position is systematic. -/
theorem generate_trellis_recursive_none_iff (env : Env) (code : osmo_conv_code)
    (sums outs : Nat → Int) (hrec : code.next_term_output.isSome = true)
    (hs : env.sums_block = some sums) (ho : env.outputs_block = some outs) :
    generate_trellis env code = none ↔ ¬ has_systematic_pos code := by
  unfold generate_trellis
  rw [hs, ho]
  dsimp only
  have hr : conv_code_recursive code ≠ 0 := by
    unfold conv_code_recursive
    rw [if_pos hrec]
    decide
  rw [trellis_fill_rc_recursive code _ _ hr, ← recursive_pos_neg_iff]
  by_cases h : recursive_pos code < 0
  · simp [h, EPROTO]
  · simp [h]

/-- The return code of `traceback` is `-EPROTO` or `0`. -/
theorem traceback_rc (dec : vdecoder) (out : Nat → Nat) (term : osmo_conv_term) (len : Int) :
    (traceback dec out term len).1 = -EPROTO ∨ (traceback dec out term len).1 = 0 := by
  unfold traceback
  dsimp only
  generalize (if term ≠ CONV_TERM_FLUSH then traceback_max dec else
    ({ max := -1, state := 0 } : tb_max)) = found
  by_cases hc : term ≠ CONV_TERM_FLUSH ∧ found.max < 0
  · rw [if_pos hc]; exact Or.inl rfl
  · rw [if_neg hc]
    by_cases hr : dec.recursive ≠ 0
    · rw [if_pos hr]; exact Or.inr rfl
    · rw [if_neg hr]; exact Or.inr rfl

/-- When `traceback` fails it has not stored anything in `out`. -/
theorem traceback_fail_out (dec : vdecoder) (out : Nat → Nat) (term : osmo_conv_term) (len : Int)
    (h : (traceback dec out term len).1 ≠ 0) : (traceback dec out term len).2 = out := by
  unfold traceback at h ⊢
  dsimp only at h ⊢
  generalize (if term ≠ CONV_TERM_FLUSH then traceback_max dec else
    ({ max := -1, state := 0 } : tb_max)) = found at h ⊢
  by_cases hc : term ≠ CONV_TERM_FLUSH ∧ found.max < 0
  · rw [if_pos hc]
  · rw [if_neg hc] at h
    by_cases hr : dec.recursive ≠ 0
    · rw [if_pos hr] at h; exact absurd rfl h
    · rw [if_neg hr] at h; exact absurd rfl h

/-- The result of `conv_decode` is the result of `traceback` on some decoder state. -/
theorem conv_decode_eq_traceback (env : Env) (dec : vdecoder) (seq : Nat → Int)
    (punc : Option (Nat → Int)) (out : Nat → Nat) (len : Int) (term : osmo_conv_term) :
    ∃ dec1, conv_decode env dec seq punc out len term = traceback dec1 out term len :=
  ⟨_, rfl⟩

/-- The three possible results of `alloc_vdec`. -/
theorem alloc_vdec_cases (env : Env) (code : osmo_conv_code) :
    (∃ e, alloc_vdec env code = Except.error e) ∨ alloc_vdec env code = Except.ok none ∨
      ∃ dec, alloc_vdec env code = Except.ok (some dec) := by
  cases h : alloc_vdec env code with
  | error e => exact Or.inl ⟨e, rfl⟩
  | ok r =>
    cases r with
    | none => exact Or.inr (Or.inl rfl)
    | some dec => exact Or.inr (Or.inr ⟨dec, rfl⟩)

/-- The entry point on a descriptor that passes the validation, by result of
`alloc_vdec`. -/
theorem test_conv_decode_valid (env : Env) (code : osmo_conv_code) (input : Nat → Int)
    (output : Nat → Nat)
    (hv : ¬ (code.N < 2 ∨ code.N > 4 ∨ code.len < 1 ∨ (code.K ≠ 5 ∧ code.K ≠ 7))) :
    (∃ e, test_conv_decode env code input output = Except.error e) ∨
    test_conv_decode env code input output = Except.ok (-EFAULT, output) ∨
    ∃ dec, test_conv_decode env code input output =
      Except.ok (traceback dec output code.term code.len) := by
  unfold test_conv_decode
  rw [if_neg hv]
  rcases alloc_vdec_cases env code with ⟨e, h⟩ | h | ⟨vdec, h⟩
  · rw [h]; exact Or.inl ⟨e, rfl⟩
  · rw [h]; exact Or.inr (Or.inl rfl)
  · rw [h]
    obtain ⟨dec1, hd⟩ := conv_decode_eq_traceback env vdec input code.puncture output
      code.len code.term
    exact Or.inr (Or.inr ⟨dec1, by dsimp only [free_vdec]; rw [hd]⟩)

/-- C1: `test_conv_decode` returns `-EINVAL` if and only if the descriptor violates
the constraints `N < 2`, `N > 4`, `len < 1` or `K` neither 5 nor 7; in particular
`K = 6` gives `-EINVAL`.  No other path of the entry point produces `-EINVAL`. -/
theorem test_conv_decode_einval_iff (env : Env) (code : osmo_conv_code) (input : Nat → Int)
    (output : Nat → Nat) :
    (returned_code (test_conv_decode env code input output) = some (-EINVAL) ↔
      (code.N < 2 ∨ code.N > 4 ∨ code.len < 1 ∨ ¬ (code.K = 5 ∨ code.K = 7))) ∧
    (code.K = 6 → test_conv_decode env code input output = Except.ok (-EINVAL, output)) := by
  have hbad : (code.N < 2 ∨ code.N > 4 ∨ code.len < 1 ∨ (code.K ≠ 5 ∧ code.K ≠ 7)) →
      test_conv_decode env code input output = Except.ok (-EINVAL, output) := by
    intro h
    unfold test_conv_decode
    rw [if_pos h]
  have key : returned_code (test_conv_decode env code input output) = some (-EINVAL) ↔
      (code.N < 2 ∨ code.N > 4 ∨ code.len < 1 ∨ (code.K ≠ 5 ∧ code.K ≠ 7)) := by
    constructor
    · intro hrc
      by_contra hv
      rcases test_conv_decode_valid env code input output hv with ⟨e, h⟩ | h | ⟨dec, h⟩
      · rw [h] at hrc
        exact absurd hrc (by simp [returned_code])
      · rw [h] at hrc
        have hne : (some (-EFAULT) : Option Int) ≠ some (-EINVAL) := by decide
        exact hne hrc
      · rw [h] at hrc
        have hrc2 : (traceback dec output code.term code.len).1 = -EINVAL :=
          Option.some.inj hrc
        rcases traceback_rc dec output code.term code.len with h1 | h1
        · rw [h1] at hrc2; exact absurd hrc2 (by decide)
        · rw [h1] at hrc2; exact absurd hrc2 (by decide)
    · intro h
      rw [hbad h]
      rfl
  refine ⟨?_, ?_⟩
  · rw [key]
    constructor
    · rintro (h | h | h | h)
      · exact Or.inl h
      · exact Or.inr (Or.inl h)
      · exact Or.inr (Or.inr (Or.inl h))
      · exact Or.inr (Or.inr (Or.inr (fun hk => hk.elim h.1 h.2)))
    · rintro (h | h | h | h)
      · exact Or.inl h
      · exact Or.inr (Or.inl h)
      · exact Or.inr (Or.inr (Or.inl h))
      · exact Or.inr (Or.inr (Or.inr ⟨fun hk => h (Or.inl hk), fun hk => h (Or.inr hk)⟩))
  · intro hk
    apply hbad
    refine Or.inr (Or.inr (Or.inr ⟨?_, ?_⟩)) <;> omega

/-- Witness of `test_conv_decode_einval_iff`: scenario S5, a descriptor with `K = 6`. -/
theorem test_conv_decode_einval_iff_witness :
    code_k6.K = 6 ∧
    returned_code (test_conv_decode env_idle code_k6 (fun _ => 0) (fun _ => 0)) =
      some (-EINVAL) :=
  ⟨rfl, (test_conv_decode_einval_iff env_idle code_k6 (fun _ => 0) (fun _ => 0)).1.mpr
    (Or.inr (Or.inr (Or.inr (by decide))))⟩

/-- C3: whenever `test_conv_decode` returns a non-zero code the output buffer is
the one it was given: nothing is stored before the failure is detected. -/
theorem test_conv_decode_failure_atomic (env : Env) (code : osmo_conv_code) (input : Nat → Int)
    (output : Nat → Nat) (rc : Int) (out : Nat → Nat)
    (hret : test_conv_decode env code input output = Except.ok (rc, out)) (hrc : rc ≠ 0) :
    out = output := by
  by_cases hv : code.N < 2 ∨ code.N > 4 ∨ code.len < 1 ∨ (code.K ≠ 5 ∧ code.K ≠ 7)
  · unfold test_conv_decode at hret
    rw [if_pos hv] at hret
    exact (congrArg Prod.snd (Except.ok.inj hret)).symm
  · rcases test_conv_decode_valid env code input output hv with ⟨e, h⟩ | h | ⟨dec, h⟩
    · rw [h] at hret
      exact absurd hret (by simp)
    · rw [h] at hret
      exact (congrArg Prod.snd (Except.ok.inj hret)).symm
    · rw [h] at hret
      have e := Except.ok.inj hret
      have e1 : (traceback dec output code.term code.len).1 = rc := congrArg Prod.fst e
      have e2 : (traceback dec output code.term code.len).2 = out := congrArg Prod.snd e
      rw [← e2]
      exact traceback_fail_out dec output code.term code.len (by rw [e1]; exact hrc)

/-- Witness of `test_conv_decode_failure_atomic`: a truncated decode whose kernel
leaves every sum negative fails in `traceback` with `-EPROTO`, output untouched. -/
theorem test_conv_decode_failure_atomic_witness :
    test_conv_decode env_sinking code_trunc (fun _ => 127) (fun _ => 7) =
      Except.ok (-EPROTO, fun _ => 7) ∧
    (-EPROTO ≠ 0 ∧ (fun _ => 7 : Nat → Nat) = fun _ => 7) :=
  ⟨rfl, by decide,
    test_conv_decode_failure_atomic env_sinking code_trunc (fun _ => 127) (fun _ => 7)
      (-EPROTO) (fun _ => 7) rfl (by decide)⟩

/-- C6: `gen_recursive_state_info` fails with `-EPROTO` if and only if no bit
position `i` below `N` is zero in `next_output[j][0]` for every state `j` below
`S = NUM_STATES(K)` (which is `2^(K-1)` for `K` in {5,7}); when such a position
exists the function uses the lowest one; the return code does not depend on the
state, the value cell or the output buffer; and `generate_trellis`, with its
blocks allocated, fails on a recursive descriptor exactly when no such position
exists. -/
theorem gen_recursive_state_info_systematic (code : osmo_conv_code) (val reg : Nat)
    (output : Nat → Int) :
    ((gen_recursive_state_info val reg output code).1 = -EPROTO ↔ ¬ has_systematic_pos code) ∧
    (has_systematic_pos code → ∃ p : Nat, recursive_pos code = (p : Int) ∧ (p : Int) < code.N ∧
        systematic_at code p ∧ (∀ i, i < p → ¬ systematic_at code i) ∧
        gen_recursive_state_info val reg output code =
          (0, (gen_recursive_output
                ⟨reg, vstate_lshift reg code.K 0, vstate_lshift reg code.K 1⟩ reg code p).2,
            unpack_nrz code.N (gen_recursive_output
                ⟨reg, vstate_lshift reg code.K 0, vstate_lshift reg code.K 1⟩ reg code p).1
              output)) ∧
    (∀ (val' reg' : Nat) (output' : Nat → Int),
        (gen_recursive_state_info val' reg' output' code).1 =
          (gen_recursive_state_info val reg output code).1) ∧
    (∀ (env : Env) (sums outs : Nat → Int), code.next_term_output.isSome = true →
        env.sums_block = some sums → env.outputs_block = some outs →
        (generate_trellis env code = none ↔ ¬ has_systematic_pos code)) ∧
    ((code.K = 5 ∨ code.K = 7) → NUM_STATES code.K = 2 ^ (code.K - 1).toNat) := by
  refine ⟨?_, ?_, ?_, ?_, ?_⟩
  · rw [gen_recursive_state_info_rc, ← recursive_pos_neg_iff]
    by_cases h : recursive_pos code < 0
    · simp [h]
    · simp [h, EPROTO]
  · intro h
    obtain ⟨p, hp, hlt, hs, hlow⟩ := recursive_pos_lowest code h
    refine ⟨p, hp, hlt, hs, hlow, ?_⟩
    unfold gen_recursive_state_info
    dsimp only
    have hnn : ¬ recursive_pos code < 0 := by rw [hp]; omega
    rw [if_neg hnn, hp]
  · intro val' reg' output'
    rw [gen_recursive_state_info_rc, gen_recursive_state_info_rc]
  · intro env sums outs hrec hs ho
    exact generate_trellis_recursive_none_iff env code sums outs hrec hs ho
  · rintro (h | h)
    · rw [h]; rfl
    · rw [h]; rfl

/-- Witness of `gen_recursive_state_info_systematic`: `code_rec_sys` has the
systematic position 1, `code_rec_nonsys` has none. -/
theorem gen_recursive_state_info_systematic_witness :
    has_systematic_pos code_rec_sys ∧ recursive_pos code_rec_sys = 1 ∧
    ¬ has_systematic_pos code_rec_nonsys :=
  ⟨not_not.mp (fun hno =>
      absurd ((gen_recursive_state_info_systematic code_rec_sys 0 0 (fun _ => 0)).1.mpr hno)
        (by decide)),
    by decide,
    (gen_recursive_state_info_systematic code_rec_nonsys 0 0 (fun _ => 0)).1.mp (by decide)⟩

/-! ## Trellis construction -/

/-- An upward loop only depends on the non-negative part of its bound. -/
theorem for_up_toNat {σ : Type} (n : Int) (body : Nat → σ → σ) (s : σ) :
    for_up n body s = for_up ((n.toNat : Nat) : Int) body s := by
  unfold for_up
  rw [Int.toNat_ofNat]

/-- Closed form of a loop that stores `f i` in cell `i` for every `i < n`. -/
theorem for_up_store (f : Nat → Int) (o : Nat → Int) (n a : Nat) :
    for_up (n : Int) (fun i m => store m i (f i)) o a = if a < n then f a else o a := by
  induction n with
  | zero => simp [for_up_zero]
  | succ k ih =>
    rw [Nat.cast_succ, for_up_succ]
    show (if a = k then f k else for_up (k : Int) (fun i m => store m i (f i)) o a) = _
    by_cases h : a = k
    · rw [if_pos h, if_pos (by omega)]
      rw [h]
    · rw [if_neg h, ih]
      by_cases h2 : a < k
      · rw [if_pos h2, if_pos (by omega)]
      · rw [if_neg h2, if_neg (by omega)]

/-- Closed form of the unpacking loop: the cells below `N` receive the samples, the others are kept. -/
theorem unpack_nrz_apply (N : Int) (w : Nat) (o : Nat → Int) (a : Nat) :
    unpack_nrz N w o a = if (a : Int) < N then to_int16 (BIT2NRZ w a) else o a := by
  unfold unpack_nrz
  rw [for_up_toNat, for_up_store]
  by_cases h : (a : Int) < N
  · rw [if_pos h, if_pos (by omega)]
  · rw [if_neg h, if_neg (by omega)]

/-- The value `(x >> i) & 0x01` is the bit `i` of `x` as a number. -/
theorem shift_and_one (x i : Nat) : (x >>> i) &&& 0x01 = if x.testBit i then 1 else 0 := by
  have h := shift_and_one_ne_zero x i
  rw [Nat.and_one_is_mod] at h ⊢
  rcases Nat.mod_two_eq_zero_or_one (x >>> i) with h0 | h1
  · rw [h0] at h ⊢
    rw [← h]; rfl
  · rw [h1] at h ⊢
    rw [← h]; rfl

/-- The macro `BIT2NRZ`, stored in an `int16_t`, is `+1` for a zero bit and `-1` for a one bit. -/
theorem BIT2NRZ_eq (w i : Nat) : to_int16 (BIT2NRZ w i) = if w.testBit i then -1 else 1 := by
  unfold BIT2NRZ
  rw [shift_and_one]
  cases w.testBit i <;> decide

/-- Masking with a constant below `2^n` only looks at the low `n` bits. -/
theorem land_small (w m n : Nat) (hm : m < 2 ^ n) : w &&& m = (w % 2 ^ n) &&& m := by
  rw [← Nat.and_pow_two_sub_one_eq_mod w n, Nat.and_assoc, Nat.and_comm (2 ^ n - 1) m,
    Nat.and_pow_two_sub_one_eq_mod m n, Nat.mod_eq_of_lt hm]

/-- For the widths 2, 3, 4 `bitswap` only looks at the low `n` bits of its argument. -/
theorem bitswap_mod (w n : Nat) (hn : n = 2 ∨ n = 3 ∨ n = 4) :
    bitswap w n = bitswap (w % 2 ^ n) n := by
  rcases hn with h | h | h <;> subst h
  · show bitswap2 w = bitswap2 (w % 2 ^ 2)
    unfold bitswap2
    rw [land_small w 2 2 (by norm_num), land_small w 1 2 (by norm_num)]
  · show bitswap3 w = bitswap3 (w % 2 ^ 3)
    unfold bitswap3
    rw [land_small w 4 3 (by norm_num), land_small w 2 3 (by norm_num),
      land_small w 1 3 (by norm_num)]
  · show bitswap4 w = bitswap4 (w % 2 ^ 4)
    unfold bitswap4
    rw [land_small w 8 4 (by norm_num), land_small w 4 4 (by norm_num),
      land_small w 2 4 (by norm_num), land_small w 1 4 (by norm_num)]

/-- For the widths 2, 3, 4 and any word, bit `i` of `bitswap w n` is bit `n-1-i` of `w`. -/
theorem bitswap_testBit_any (w n i : Nat) (hn : n = 2 ∨ n = 3 ∨ n = 4) (hi : i < n) :
    (bitswap w n).testBit i = w.testBit (n - 1 - i) := by
  have hpos : 0 < 2 ^ n := Nat.pos_pow_of_pos n (by decide)
  have hlt : w % 2 ^ n < 2 ^ n := Nat.mod_lt _ hpos
  have h64 : w % 2 ^ n < 64 := lt_of_lt_of_le hlt (by
    rcases hn with h | h | h <;> subst h <;> norm_num)
  rw [bitswap_mod w n hn,
    bitswap_table_bits n (by omega) (w % 2 ^ n) h64 ⟨by omega, hlt⟩ i (by omega) hi,
    Nat.testBit_mod_two_pow]
  have : n - 1 - i < n := by omega
  simp [this]

/-- Unpacking through the pointer `&m[off]` changes the cells `off .. off+N-1` only. -/
theorem mem_put_unpack (m : Nat → Int) (off : Nat) (N : Int) (w : Nat) (a : Nat) :
    mem_put m off (unpack_nrz N w (mem_at m off)) a =
      if off ≤ a ∧ ((a - off : Nat) : Int) < N then to_int16 (BIT2NRZ w (a - off)) else m a := by
  unfold mem_put
  by_cases h : off ≤ a
  · rw [if_pos h, unpack_nrz_apply]
    by_cases h2 : ((a - off : Nat) : Int) < N
    · rw [if_pos h2, if_pos ⟨h, h2⟩]
    · rw [if_neg h2, if_neg (fun hc => h2 hc.2)]
      unfold mem_at
      congr 1
      omega
  · rw [if_neg h, if_neg (fun hc => h hc.1)]

/-- One iteration of the trellis loop when the state-info call succeeds. -/
theorem trellis_fill_step_ok (code : osmo_conv_code) (olen : Int) (i : Nat) (st : trellis_fill)
    (hok : conv_code_recursive code = 0 ∨ ¬ recursive_pos code < 0) :
    trellis_fill_step code (conv_code_recursive code) olen i st =
      { rc := 0, vals := store st.vals i (trellis_val code i),
        outputs := mem_put st.outputs (olen * (i : Int)).toNat
          (unpack_nrz code.N (trellis_word code i) (mem_at st.outputs (olen * (i : Int)).toNat)) } := by
  unfold trellis_fill_step trellis_val trellis_word
  dsimp only
  by_cases hr : conv_code_recursive code ≠ 0
  · have hp : ¬ recursive_pos code < 0 := by
      rcases hok with h | h
      · exact absurd h hr
      · exact h
    rw [if_pos hr, if_pos hr, if_pos hr]
    unfold gen_recursive_state_info
    dsimp only
    rw [if_neg hp]
    rfl
  · rw [if_neg hr, if_neg hr, if_neg hr]
    rfl

/-- Invariant of the trellis loop: after `n` iterations the states below `n` hold their value and their `N` samples. -/
theorem trellis_fill_inv (code : osmo_conv_code) (olen : Int) (st0 : trellis_fill)
    (hok : conv_code_recursive code = 0 ∨ ¬ recursive_pos code < 0)
    (hol : code.N ≤ olen) (n : Nat) :
    (∀ s, s < n → (for_up (n : Int) (trellis_fill_step code (conv_code_recursive code) olen)
        st0).vals s = trellis_val code s) ∧
    (∀ s i : Nat, s < n → (i : Int) < code.N →
      (for_up (n : Int) (trellis_fill_step code (conv_code_recursive code) olen) st0).outputs
        (olen.toNat * s + i) = to_int16 (BIT2NRZ (trellis_word code s) i)) ∧
    (0 < n → (for_up (n : Int) (trellis_fill_step code (conv_code_recursive code) olen)
        st0).rc = 0) := by
  induction n with
  | zero =>
    exact ⟨fun s hs => absurd hs (by omega), fun s i hs => absurd hs (by omega),
      fun h => absurd h (by omega)⟩
  | succ k ih =>
    obtain ⟨ihv, iho, _⟩ := ih
    rw [Nat.cast_succ, for_up_succ, trellis_fill_step_ok code olen k _ hok]
    refine ⟨?_, ?_, fun _ => rfl⟩
    · intro s hs
      show store _ k (trellis_val code k) s = _
      unfold store
      by_cases h : s = k
      · rw [if_pos h, h]
      · rw [if_neg h]
        exact ihv s (by omega)
    · intro s i hs hi
      show mem_put _ _ _ _ = _
      rw [mem_put_unpack]
      have hi0 : (0 : Int) ≤ olen := by omega
      have hoff : (olen * (k : Int)).toNat = olen.toNat * k := by
        have h1 : ((olen.toNat : Nat) : Int) = olen := Int.toNat_of_nonneg hi0
        have : olen * (k : Int) = ((olen.toNat * k : Nat) : Int) := by
          rw [Nat.cast_mul, h1]
        rw [this, Int.toNat_ofNat]
      rw [hoff]
      have hiN : i < olen.toNat := by omega
      by_cases h : s = k
      · subst h
        have e : olen.toNat * s + i - olen.toNat * s = i := by omega
        rw [e, if_pos ⟨by omega, hi⟩]
      · have hsk : s < k := by omega
        have hlt : olen.toNat * s + i < olen.toNat * k := by
          calc olen.toNat * s + i < olen.toNat * s + olen.toNat := by omega
            _ = olen.toNat * (s + 1) := by ring
            _ ≤ olen.toNat * k := Nat.mul_le_mul_left _ (by omega)
        rw [if_neg (fun hc => by omega)]
        exact iho s i hsk hi

/-- Contents of the trellis returned by `generate_trellis`. -/
theorem generate_trellis_some (env : Env) (code : osmo_conv_code) (t : vtrellis)
    (hN : code.N = 2 ∨ code.N = 3 ∨ code.N = 4)
    (h : generate_trellis env code = some t) :
    (∀ s : Nat, (s : Int) < NUM_STATES code.K → t.vals s = trellis_val code s) ∧
    (∀ s i : Nat, (s : Int) < NUM_STATES code.K → (i : Int) < code.N →
      t.outputs ((trellis_olen code).toNat * s + i) =
        to_int16 (BIT2NRZ (trellis_word code s) i)) := by
  unfold generate_trellis at h
  dsimp only at h
  cases hs : env.sums_block with
  | none => rw [hs] at h; exact absurd h (by simp)
  | some sums =>
    cases ho : env.outputs_block with
    | none => rw [hs, ho] at h; exact absurd h (by simp)
    | some outs =>
      rw [hs, ho] at h
      dsimp only at h
      by_cases hrc : (for_up (NUM_STATES code.K)
          (trellis_fill_step code (conv_code_recursive code) (if code.N = 2 then 2 else 4))
          { rc := -1, vals := env.vals_block, outputs := outs }).rc < 0
      · rw [if_pos hrc] at h
        exact absurd h (by simp)
      · rw [if_neg hrc] at h
        have hok : conv_code_recursive code = 0 ∨ ¬ recursive_pos code < 0 := by
          by_cases hr : conv_code_recursive code = 0
          · exact Or.inl hr
          · right
            intro hneg
            rw [trellis_fill_rc_recursive code _ _ hr, if_pos hneg] at hrc
            exact hrc (by decide)
        have hol : code.N ≤ trellis_olen code := by
          unfold trellis_olen
          rcases hN with h2 | h2 | h2 <;> rw [h2] <;> decide
        obtain ⟨n, hn⟩ := NUM_STATES_pred code.K
        have inv := trellis_fill_inv code (trellis_olen code)
          { rc := -1, vals := env.vals_block, outputs := outs } hok hol (n + 1)
        rw [Nat.cast_succ, ← hn] at inv
        have ht := Option.some.inj h
        subst ht
        refine ⟨fun s hs => inv.1 s (by omega), fun s i hs hi => inv.2.1 s i (by omega) hi⟩

/-- The call `vstate_lshift(reg, K, 0)` computes the "previous 0-state" of the specification. -/
theorem vstate_lshift_zero (K : Int) (s : Nat) (hK : K = 5 ∨ K = 7) :
    vstate_lshift s K 0 = spec_prev0 K s := by
  unfold vstate_lshift spec_prev0
  have hm : lshift_mask K = spec_mask K := by
    unfold lshift_mask spec_mask
    rcases hK with h | h <;> rw [h] <;> rfl
  have hlt : spec_mask K < 2 ^ 32 := by
    unfold spec_mask
    rcases hK with h | h <;> rw [h] <;> decide
  have h0 : to_unsigned 0 = 0 := by decide
  rw [hm, h0, Nat.or_zero]
  exact (land_small (s <<< 1) (spec_mask K) 32 hlt).symm

/-- The width `K - 1` passed to `bitswap` for the supported constraint lengths. -/
theorem to_unsigned_K_pred (K : Int) (hK : K = 5 ∨ K = 7) :
    to_unsigned (K - 1) = (K - 1).toNat := by
  rcases hK with h | h <;> rw [h] <;> decide

/-- The width `N` passed to `bitswap` for the supported rates. -/
theorem to_unsigned_N (N : Int) (hN : N = 2 ∨ N = 3 ∨ N = 4) :
    to_unsigned N = N.toNat := by
  rcases hN with h | h | h <;> rw [h] <;> decide

/-- A single bit fits in a `uint8_t`. -/
theorem to_uint8_bit (x : Nat) : to_uint8 (x &&& 0x01) = x &&& 1 := by
  unfold to_uint8
  exact Nat.mod_eq_of_lt (lt_of_le_of_lt Nat.and_le_right (by decide))

/-- The supported rates as natural numbers. -/
theorem N_toNat_cases (N : Int) (hN : N = 2 ∨ N = 3 ∨ N = 4) :
    N.toNat = 2 ∨ N.toNat = 3 ∨ N.toNat = 4 := by
  rcases hN with h | h | h <;> rw [h] <;> decide

/-- Function `gen_output` reads the row `bitreverse(prev0, K-1)` and reverses the `N`-bit word. -/
theorem gen_output_spec (code : osmo_conv_code) (s val : Nat)
    (hK : code.K = 5 ∨ code.K = 7) (hN : code.N = 2 ∨ code.N = 3 ∨ code.N = 4) :
    gen_output (vstate_of code s) val code =
      bitswap (code.next_output (spec_row code.K s) val) code.N.toNat := by
  unfold gen_output vstate_of spec_row
  dsimp only
  rw [vstate_lshift_zero code.K s hK, to_unsigned_K_pred code.K hK, to_unsigned_N code.N hN]

/-- Value and word of a state of a non-recursive code. -/
theorem trellis_word_nonrec (code : osmo_conv_code) (s : Nat)
    (hK : code.K = 5 ∨ code.K = 7) (hN : code.N = 2 ∨ code.N = 3 ∨ code.N = 4)
    (hrec : code.next_term_output = none) :
    trellis_val code s = spec_val code.K s ∧
    trellis_word code s =
      bitswap (code.next_output (spec_row code.K s) (spec_val code.K s)) code.N.toNat := by
  have hr : ¬ conv_code_recursive code ≠ 0 := by
    unfold conv_code_recursive
    rw [hrec]
    decide
  unfold trellis_val trellis_word
  rw [if_neg hr, if_neg hr, to_uint8_bit, gen_output_spec code s _ hK hN]
  exact ⟨rfl, rfl⟩

/-- Sample `i` unpacked from a reversed word is decided by bit `n-1-i` of the word. -/
theorem sample_of_word (w n i : Nat) (hn : n = 2 ∨ n = 3 ∨ n = 4) (hi : i < n) :
    to_int16 (BIT2NRZ (bitswap w n) i) = if w.testBit (n - 1 - i) then -1 else 1 := by
  rw [BIT2NRZ_eq, bitswap_testBit_any w n i hn hi]

/-- With both blocks allocated, `generate_trellis` succeeds on a non-recursive code. -/
theorem generate_trellis_nonrec_some (env : Env) (code : osmo_conv_code) (sums outs : Nat → Int)
    (hrec : code.next_term_output = none)
    (hs : env.sums_block = some sums) (ho : env.outputs_block = some outs) :
    ∃ t, generate_trellis env code = some t := by
  unfold generate_trellis
  rw [hs, ho]
  dsimp only
  have hr : conv_code_recursive code = 0 := by
    unfold conv_code_recursive
    rw [hrec]
    rfl
  obtain ⟨n, hn⟩ := NUM_STATES_pred code.K
  have hrc : ¬ (for_up (NUM_STATES code.K)
      (trellis_fill_step code (conv_code_recursive code) (if code.N = 2 then 2 else 4))
      { rc := -1, vals := env.vals_block, outputs := outs }).rc < 0 := by
    rw [hn, for_up_succ, trellis_fill_step_ok code _ n _ (Or.inl hr)]
    exact fun h => absurd (show (0 : Int) < 0 from h) (by decide)
  rw [if_neg hrc]
  exact ⟨_, rfl⟩

/-- C4: non-recursive trellis construction.  For `K` in {5,7}, `N` in {2,3,4} and a
state `s < 2^(K-1)`, `gen_state_info` returns 0, sets the value to
`(s >> (K-2)) & 1`, takes as expected output word the `N`-bit reversal of
`next_output[bitreverse(prev0, K-1)][val]` with `prev0 = (s << 1) & mask`, and
stores as sample `i` the `BIT2NRZ` of that word, which is decided by bit `N-1-i`
of the table word; cells from `N` on are kept; the trellis returned by
`generate_trellis` for a non-recursive code holds these values for state `s`. -/
theorem gen_state_info_spec (code : osmo_conv_code) (s : Nat) (output : Nat → Int)
    (hK : code.K = 5 ∨ code.K = 7) (hN : code.N = 2 ∨ code.N = 3 ∨ code.N = 4)
    (hs : s < 2 ^ (code.K - 1).toNat) :
    (gen_state_info s output code).1 = 0 ∧
    (gen_state_info s output code).2.1 = spec_val code.K s ∧
    gen_output (vstate_of code s) (spec_val code.K s) code =
      bitswap (code.next_output (spec_row code.K s) (spec_val code.K s)) code.N.toNat ∧
    (∀ i : Nat, (i : Int) < code.N →
      (gen_state_info s output code).2.2 i = to_int16 (BIT2NRZ (bitswap
        (code.next_output (spec_row code.K s) (spec_val code.K s)) code.N.toNat) i) ∧
      (gen_state_info s output code).2.2 i =
        if (code.next_output (spec_row code.K s) (spec_val code.K s)).testBit
          (code.N.toNat - 1 - i) then -1 else 1) ∧
    (∀ i : Nat, ¬ (i : Int) < code.N → (gen_state_info s output code).2.2 i = output i) ∧
    (∀ (env : Env) (t : vtrellis), code.next_term_output = none →
      generate_trellis env code = some t →
      t.vals s = spec_val code.K s ∧
      ∀ i : Nat, (i : Int) < code.N →
        t.outputs ((trellis_olen code).toNat * s + i) =
          if (code.next_output (spec_row code.K s) (spec_val code.K s)).testBit
            (code.N.toNat - 1 - i) then -1 else 1) := by
  have hgo := gen_output_spec code s (spec_val code.K s) hK hN
  have hval : (gen_state_info s output code).2.1 = spec_val code.K s := by
    unfold gen_state_info
    dsimp only
    rw [to_uint8_bit]
    rfl
  have hout : ∀ i : Nat, (gen_state_info s output code).2.2 i =
      if (i : Int) < code.N then to_int16 (BIT2NRZ (bitswap
        (code.next_output (spec_row code.K s) (spec_val code.K s)) code.N.toNat) i)
      else output i := by
    intro i
    unfold gen_state_info
    dsimp only
    rw [unpack_nrz_apply, to_uint8_bit]
    have h2 : gen_output (vstate_of code s) (s >>> (code.K - 2).toNat &&& 1) code =
        bitswap (code.next_output (spec_row code.K s) (spec_val code.K s)) code.N.toNat := hgo
    unfold vstate_of at h2
    rw [h2]
  have hNn := N_toNat_cases code.N hN
  refine ⟨rfl, hval, hgo, ?_, ?_, ?_⟩
  · intro i hi
    have e := hout i
    rw [if_pos hi] at e
    refine ⟨e, ?_⟩
    rw [e, sample_of_word _ _ _ hNn (by omega)]
  · intro i hi
    have e := hout i
    rw [if_neg hi] at e
    exact e
  · intro env t hrec ht
    have hNS : (s : Int) < NUM_STATES code.K := by
      unfold NUM_STATES
      rcases hK with h | h <;> rw [h] at hs ⊢
      · have : s < 16 := hs
        simp; omega
      · have : s < 64 := hs
        simp; omega
    obtain ⟨hv, ho⟩ := generate_trellis_some env code t hN ht
    obtain ⟨hv2, hw2⟩ := trellis_word_nonrec code s hK hN hrec
    refine ⟨by rw [hv s hNS, hv2], ?_⟩
    intro i hi
    rw [ho s i hNS hi, hw2, sample_of_word _ _ _ hNn (by omega)]

/-- Witness of `gen_state_info_spec`: state 9 of `code_trunc` has value 1, reads row
4 of the table and gets the samples `+1`, `-1`. -/
theorem gen_state_info_spec_witness :
    ((code_trunc.K = 5 ∨ code_trunc.K = 7) ∧
      (code_trunc.N = 2 ∨ code_trunc.N = 3 ∨ code_trunc.N = 4) ∧
      9 < 2 ^ (code_trunc.K - 1).toNat) ∧
    (spec_val code_trunc.K 9 = 1 ∧ spec_row code_trunc.K 9 = 4) ∧
    (gen_state_info 9 (fun _ => 0) code_trunc).2.1 = spec_val code_trunc.K 9 ∧
    ((gen_state_info 9 (fun _ => 0) code_trunc).2.2 0 = 1 ∧
      (gen_state_info 9 (fun _ => 0) code_trunc).2.2 1 = -1) :=
  ⟨⟨Or.inl rfl, Or.inl rfl, by decide⟩, ⟨by decide, by decide⟩,
    (gen_state_info_spec code_trunc 9 (fun _ => 0) (Or.inl rfl) (Or.inl rfl) (by decide)).2.1,
    by decide⟩

/-- C5 (counterexample): for state 0 of `code_trunc` bit 0 of the expected output
word is `b = 0` and the stored sample `outputs[0]` is `+1`, which is not
`-(1 - 2b) = -1`. -/
theorem trellis_outputs_sign_cex :
    (trellis_word code_trunc 0).testBit 0 = false ∧
    (generate_trellis env_idle code_trunc).map
      (fun t => t.outputs ((trellis_olen code_trunc).toNat * 0 + 0)) = some 1 ∧
    (1 : Int) ≠ -(1 - 2 * 0) := by
  refine ⟨by decide, by decide, by decide⟩

/-- C5 (amended): for every state `s` below `NUM_STATES(K)` and every `i` below `N`,
the stored sample `outputs[s*olen + i]` is the `BIT2NRZ` of the expected output
word stored in an `int16_t`, which equals `1 - 2b` where `b` is bit `i` of the
(bit-reversed) expected output word: `+1` for a zero bit, `-1` for a one bit.
Every stored sample is in {-1, +1}. -/
theorem trellis_outputs_bipolar (env : Env) (code : osmo_conv_code) (t : vtrellis)
    (s i : Nat) (hN : code.N = 2 ∨ code.N = 3 ∨ code.N = 4)
    (h : generate_trellis env code = some t)
    (hs : (s : Int) < NUM_STATES code.K) (hi : (i : Int) < code.N) :
    t.outputs ((trellis_olen code).toNat * s + i) =
        to_int16 (BIT2NRZ (trellis_word code s) i) ∧
    t.outputs ((trellis_olen code).toNat * s + i) =
        1 - 2 * (if (trellis_word code s).testBit i then 1 else 0) ∧
    (t.outputs ((trellis_olen code).toNat * s + i) = -1 ∨
      t.outputs ((trellis_olen code).toNat * s + i) = 1) := by
  have e := (generate_trellis_some env code t hN h).2 s i hs hi
  rw [e, BIT2NRZ_eq]
  cases (trellis_word code s).testBit i
  · exact ⟨rfl, by decide, Or.inr rfl⟩
  · exact ⟨rfl, by decide, Or.inl rfl⟩

/-- Witness of `trellis_outputs_bipolar`: sample 1 of state 9 of `code_trunc`. -/
theorem trellis_outputs_bipolar_witness :
    ∃ t, generate_trellis env_idle code_trunc = some t ∧
      (trellis_word code_trunc 9).testBit 1 = true ∧
      t.outputs ((trellis_olen code_trunc).toNat * 9 + 1) = -1 := by
  obtain ⟨t, ht⟩ := generate_trellis_nonrec_some env_idle code_trunc (fun _ => 0) (fun _ => 0)
    rfl rfl rfl
  have hb : (trellis_word code_trunc 9).testBit 1 = true := by decide
  have h := (trellis_outputs_bipolar env_idle code_trunc t 9 1 (Or.inl rfl) ht
    (by decide) (by decide)).2.1
  rw [hb] at h
  exact ⟨t, ht, hb, h⟩

/-- The comparison `val0 == val1 ? 0 : 1` on two bits is their exclusive or. -/
theorem ne_bits_eq_xor (a b : Nat) (ha : a ≤ 1) (hb : b ≤ 1) :
    (if ((a : Nat) : Int) = ((b : Nat) : Int) then 0 else 1 : Nat) = a ^^^ b := by
  interval_cases a <;> interval_cases b <;> decide

/-- The lowest systematic position is the one found by the search. -/
theorem recursive_pos_eq_of_lowest (code : osmo_conv_code) (p : Nat)
    (hp : (p : Int) < code.N) (hsys : systematic_at code p)
    (hlow : ∀ i, i < p → ¬ systematic_at code i) : recursive_pos code = (p : Int) := by
  obtain ⟨q, hq, hqN, hqs, hqlow⟩ := recursive_pos_lowest code ⟨p, hp, hsys⟩
  rw [hq]
  rcases Nat.lt_trichotomy q p with h | h | h
  · exact absurd hqs (hlow q h)
  · rw [h]
  · exact absurd hsys (hqlow p h)

/-- Function `gen_recursive_output` at the found position, in the words of the
specification. -/
theorem gen_recursive_output_spec (code : osmo_conv_code) (nto : Nat → Nat) (s p : Nat)
    (hrec : code.next_term_output = some nto)
    (hK : code.K = 5 ∨ code.K = 7) (hN : code.N = 2 ∨ code.N = 3 ∨ code.N = 4) :
    gen_recursive_output (vstate_of code s) s code (p : Int) =
      (bitswap (code.next_output (spec_row code.K s) (spec_rec_val code.K nto p s))
        code.N.toNat, spec_rec_val code.K nto p s) := by
  unfold gen_recursive_output vstate_of
  dsimp only
  rw [hrec]
  dsimp only
  rw [vstate_lshift_zero code.K s hK, to_unsigned_K_pred code.K hK, to_unsigned_N code.N hN,
    Int.toNat_ofNat, ne_bits_eq_xor _ _ Nat.and_le_right Nat.and_le_right]
  rfl

/-- C7: recursive trellis construction.  For a recursive descriptor with `K` in
{5,7}, `N` in {2,3,4}, lowest systematic position `p` and a state `s < 2^(K-1)`,
`gen_recursive_state_info` returns 0, sets the value to `val0 XOR val1` with
`val0 = (s >> (K-2)) & 1` and
`val1 = (next_term_output[bitreverse(prev0, K-1)] >> p) & 1`, and unpacks the
`N`-bit reversal of `next_output[bitreverse(prev0, K-1)][val]`; the trellis
returned by `generate_trellis` holds these values for state `s`. -/
theorem gen_recursive_state_info_spec (code : osmo_conv_code) (nto : Nat → Nat)
    (val s p : Nat) (output : Nat → Int)
    (hrec : code.next_term_output = some nto)
    (hK : code.K = 5 ∨ code.K = 7) (hN : code.N = 2 ∨ code.N = 3 ∨ code.N = 4)
    (hs : s < 2 ^ (code.K - 1).toNat)
    (hp : (p : Int) < code.N) (hsys : systematic_at code p)
    (hlow : ∀ i, i < p → ¬ systematic_at code i) :
    (gen_recursive_state_info val s output code).1 = 0 ∧
    (gen_recursive_state_info val s output code).2.1 = spec_rec_val code.K nto p s ∧
    spec_rec_val code.K nto p s =
      ((s >>> (code.K - 2).toNat) &&& 1) ^^^ (((nto (spec_row code.K s)) >>> p) &&& 1) ∧
    (gen_recursive_output (vstate_of code s) s code (recursive_pos code)).1 =
      bitswap (code.next_output (spec_row code.K s) (spec_rec_val code.K nto p s))
        code.N.toNat ∧
    (∀ i : Nat, (i : Int) < code.N →
      (gen_recursive_state_info val s output code).2.2 i = to_int16 (BIT2NRZ (bitswap
        (code.next_output (spec_row code.K s) (spec_rec_val code.K nto p s)) code.N.toNat) i)) ∧
    (∀ i : Nat, ¬ (i : Int) < code.N →
      (gen_recursive_state_info val s output code).2.2 i = output i) ∧
    (∀ (env : Env) (t : vtrellis), generate_trellis env code = some t →
      t.vals s = spec_rec_val code.K nto p s ∧
      ∀ i : Nat, (i : Int) < code.N →
        t.outputs ((trellis_olen code).toNat * s + i) = to_int16 (BIT2NRZ (bitswap
          (code.next_output (spec_row code.K s) (spec_rec_val code.K nto p s))
          code.N.toNat) i)) := by
  have hpos := recursive_pos_eq_of_lowest code p hp hsys hlow
  have hgo := gen_recursive_output_spec code nto s p hrec hK hN
  have hnn : ¬ recursive_pos code < 0 := by rw [hpos]; omega
  have hinfo : gen_recursive_state_info val s output code =
      (0, spec_rec_val code.K nto p s, unpack_nrz code.N (bitswap
        (code.next_output (spec_row code.K s) (spec_rec_val code.K nto p s)) code.N.toNat)
        output) := by
    unfold gen_recursive_state_info
    dsimp only
    rw [if_neg hnn, hpos]
    have h2 := hgo
    unfold vstate_of at h2
    rw [h2]
  refine ⟨by rw [hinfo], by rw [hinfo], rfl, by rw [hpos, hgo], ?_, ?_, ?_⟩
  · intro i hi
    rw [hinfo]
    show unpack_nrz _ _ _ i = _
    rw [unpack_nrz_apply, if_pos hi]
  · intro i hi
    rw [hinfo]
    show unpack_nrz _ _ _ i = _
    rw [unpack_nrz_apply, if_neg hi]
  · intro env t ht
    have hNS : (s : Int) < NUM_STATES code.K := by
      unfold NUM_STATES
      rcases hK with h | h <;> rw [h] at hs ⊢
      · have : s < 16 := hs
        simp; omega
      · have : s < 64 := hs
        simp; omega
    have hr : conv_code_recursive code ≠ 0 := by
      unfold conv_code_recursive
      rw [hrec]
      simp
    obtain ⟨hv, ho⟩ := generate_trellis_some env code t hN ht
    have hval : trellis_val code s = spec_rec_val code.K nto p s := by
      unfold trellis_val
      rw [if_pos hr, hpos, hgo]
    have hword : trellis_word code s = bitswap
        (code.next_output (spec_row code.K s) (spec_rec_val code.K nto p s)) code.N.toNat := by
      unfold trellis_word
      rw [if_pos hr, hpos, hgo]
    refine ⟨by rw [hv s hNS, hval], ?_⟩
    intro i hi
    rw [ho s i hNS hi, hword]

/-- The descriptor `code_rec_sys` has the systematic position 1 and not 0. -/
theorem code_rec_sys_pos : systematic_at code_rec_sys 1 ∧
    ∀ i, i < 1 → ¬ systematic_at code_rec_sys i := by
  refine ⟨fun j _ => (by decide : (1 : Nat).testBit 1 = false), ?_⟩
  intro i hi hs
  have hi0 : i = 0 := by omega
  subst hi0
  exact absurd (hs 0 (by decide)) (by decide)

/-- Witness of `gen_recursive_state_info_spec`: state 9 of `code_rec_sys`. -/
theorem gen_recursive_state_info_spec_witness :
    spec_rec_val code_rec_sys.K (fun j => j % 4) 1 9 = 1 ∧
    (gen_recursive_state_info 5 9 (fun _ => 0) code_rec_sys).2.1 =
      spec_rec_val code_rec_sys.K (fun j => j % 4) 1 9 ∧
    (gen_recursive_state_info 5 9 (fun _ => 0) code_rec_sys).2.2 0 = -1 :=
  ⟨by decide,
    (gen_recursive_state_info_spec code_rec_sys (fun j => j % 4) 5 9 1 (fun _ => 0) rfl
      (Or.inl rfl) (Or.inl rfl) (by decide) (by decide) code_rec_sys_pos.1
      code_rec_sys_pos.2).2.1,
    by decide⟩

/-! ## Depuncturing -/

/-- The count of puncture indices grows by one exactly at a punctured position. -/
theorem punct_below_succ (P : List Nat) (i : Nat) :
    punct_below P (i + 1) = punct_below P i + if i ∈ P then 1 else 0 := by
  unfold punct_below
  rw [List.range_succ, List.filter_append, List.length_append]
  by_cases h : i ∈ P
  · simp [h]
  · simp [h]

/-- At most `i` puncture indices are below `i`. -/
theorem punct_below_le (P : List Nat) (i : Nat) : punct_below P i ≤ i := by
  unfold punct_below
  calc ((List.range i).filter (fun p => decide (p ∈ P))).length
      ≤ (List.range i).length := List.length_filter_le _ _
    _ = i := List.length_range i

/-- A strictly increasing list, read by index. -/
theorem strict_getD (P : List Nat) (hP : P.Pairwise (fun a b => a < b)) (a b : Nat)
    (hab : a < b) (hb : b < P.length) : P.getD a 0 < P.getD b 0 := by
  rw [List.getD_eq_getElem P 0 (by omega), List.getD_eq_getElem P 0 hb]
  exact List.pairwise_iff_getElem.mp hP a b (by omega) hb hab

/-- Membership in the puncture list, read by index. -/
theorem mem_iff_getD (P : List Nat) (i : Nat) :
    i ∈ P ↔ ∃ k, k < P.length ∧ P.getD k 0 = i := by
  rw [List.mem_iff_getElem]
  constructor
  · rintro ⟨k, hk, e⟩
    exact ⟨k, hk, by rw [List.getD_eq_getElem P 0 hk, e]⟩
  · rintro ⟨k, hk, e⟩
    exact ⟨k, hk, by rw [← List.getD_eq_getElem P 0 hk, e]⟩

/-- Invariant of the loop of `depuncture` after `i` iterations: `n` counts the
puncture indices below `i` and splits the list at `i`, `m` counts the samples
consumed, the cells below `i` hold the depunctured stream and the others are
untouched. -/
theorem depuncture_inv (inp punc : Nat → Int) (out : Nat → Int) (P : List Nat)
    (hP : P.Pairwise (fun a b => a < b)) (hpunc : holds_punc punc P) (i : Nat) :
    (depuncture_loop inp punc out (i : Int)).n = punct_below P i ∧
    (depuncture_loop inp punc out (i : Int)).m = i - punct_below P i ∧
    (depuncture_loop inp punc out (i : Int)).n ≤ P.length ∧
    (∀ k, k < (depuncture_loop inp punc out (i : Int)).n → P.getD k 0 < i) ∧
    (∀ k, (depuncture_loop inp punc out (i : Int)).n ≤ k → k < P.length → i ≤ P.getD k 0) ∧
    (∀ j, (depuncture_loop inp punc out (i : Int)).out j =
      if j < i then spec_depunct inp P j else out j) := by
  induction i with
  | zero =>
    refine ⟨rfl, rfl, Nat.zero_le _, fun k hk => absurd hk (Nat.not_lt_zero k),
      fun k _ _ => Nat.zero_le _, fun j => ?_⟩
    rw [if_neg (Nat.not_lt_zero j)]
    rfl
  | succ i ih =>
    obtain ⟨hn, hm, hle, hlo, hhi, hout⟩ := ih
    have hc := punct_below_le P i
    have hstep : depuncture_loop inp punc out ((i + 1 : Nat) : Int) =
        depuncture_step inp punc i (depuncture_loop inp punc out (i : Int)) := by
      unfold depuncture_loop
      rw [Nat.cast_succ, for_up_succ]
    rw [hstep]
    generalize depuncture_loop inp punc out (i : Int) = st at hn hm hle hlo hhi hout
    unfold depuncture_step
    by_cases hcmp : (i : Int) = punc st.n
    · rw [if_pos hcmp]
      dsimp only
      have hlt : st.n < P.length := by
        rcases Nat.lt_or_ge st.n P.length with h | h
        · exact h
        · have e : st.n = P.length := by omega
          have := hpunc.2
          rw [← e, ← hcmp] at this
          omega
      have hPn : P.getD st.n 0 = i := by
        have := hpunc.1 st.n hlt
        rw [← hcmp] at this
        omega
      have hmem : i ∈ P := (mem_iff_getD P i).mpr ⟨st.n, hlt, hPn⟩
      refine ⟨?_, ?_, hlt, ?_, ?_, ?_⟩
      · rw [punct_below_succ, if_pos hmem, hn]
      · rw [punct_below_succ, if_pos hmem, hm]; omega
      · intro k hk
        rcases Nat.lt_or_ge k st.n with h | h
        · have := hlo k h; omega
        · have e : k = st.n := by omega
          rw [e, hPn]; omega
      · intro k hk hkl
        have := strict_getD P hP st.n k (by omega) hkl
        omega
      · intro j
        unfold store
        by_cases hj : j = i
        · rw [if_pos hj, if_pos (by omega), hj]
          unfold spec_depunct
          rw [if_pos hmem]
        · rw [if_neg hj, hout j]
          by_cases hji : j < i
          · rw [if_pos hji, if_pos (by omega)]
          · rw [if_neg hji, if_neg (by omega)]
    · rw [if_neg hcmp]
      dsimp only
      have hnmem : i ∉ P := by
        intro hmem
        obtain ⟨k, hk, e⟩ := (mem_iff_getD P i).mp hmem
        rcases Nat.lt_or_ge k st.n with h | h
        · have := hlo k h; omega
        · have hlt : st.n < P.length := by omega
          have hpn := hpunc.1 st.n hlt
          rcases Nat.eq_or_lt_of_le h with h2 | h2
          · rw [h2, e] at hpn
            rw [h2] at hcmp
            exact hcmp hpn.symm
          · have h3 := strict_getD P hP st.n k h2 hk
            have h4 := hhi st.n (Nat.le_refl _) hlt
            omega
      refine ⟨?_, ?_, hle, ?_, ?_, ?_⟩
      · rw [punct_below_succ, if_neg hnmem, hn]; rfl
      · rw [punct_below_succ, if_neg hnmem, hm]; omega
      · intro k hk
        have := hlo k hk; omega
      · intro k hk hkl
        have h1 := hhi k hk hkl
        have h2 : P.getD k 0 ≠ i := fun e => hnmem ((mem_iff_getD P i).mpr ⟨k, hkl, e⟩)
        omega
      · intro j
        unfold store
        by_cases hj : j = i
        · rw [if_pos hj, if_pos (by omega), hj]
          unfold spec_depunct
          rw [if_neg hnmem, hm]
        · rw [if_neg hj, hout j]
          by_cases hji : j < i
          · rw [if_pos hji, if_pos (by omega)]
          · rw [if_neg hji, if_neg (by omega)]

/-- The branch of iteration `i` of `depuncture` is taken exactly at the punctured
positions. -/
theorem depuncture_branch (inp punc : Nat → Int) (out : Nat → Int) (P : List Nat)
    (hP : P.Pairwise (fun a b => a < b)) (hpunc : holds_punc punc P) (i : Nat) :
    (i : Int) = punc (depuncture_loop inp punc out (i : Int)).n ↔ i ∈ P := by
  have h0 := (depuncture_inv inp punc out P hP hpunc i).1
  have h1 := (depuncture_inv inp punc out P hP hpunc (i + 1)).1
  have hstep : depuncture_loop inp punc out ((i + 1 : Nat) : Int) =
      depuncture_step inp punc i (depuncture_loop inp punc out (i : Int)) := by
    unfold depuncture_loop
    rw [Nat.cast_succ, for_up_succ]
  rw [hstep, punct_below_succ] at h1
  unfold depuncture_step at h1
  by_cases hcmp : (i : Int) = punc (depuncture_loop inp punc out (i : Int)).n
  · rw [if_pos hcmp] at h1
    dsimp only at h1
    refine ⟨fun _ => ?_, fun _ => hcmp⟩
    by_contra hmem
    rw [if_neg hmem] at h1
    omega
  · rw [if_neg hcmp] at h1
    dsimp only at h1
    refine ⟨fun h => absurd h hcmp, fun hmem => ?_⟩
    rw [if_pos hmem] at h1
    omega

/-- C9: for every length `L`, every strictly increasing list `P` of puncture
indices followed in the buffer by a negative sentinel, and every input,
`depuncture` returns 0 and writes for each `i < L` the value `0` if `i` is in `P`
and `in[i - |{p in P : p < i}|]` otherwise, leaving the cells from `L` on as they
were; in iteration `i` it reads `punc[n]` with `n = |{p in P : p < i}|`, which is
at most the index of the sentinel, and takes the puncturing branch exactly when
`i` is in `P`; the result does not depend on the buffer beyond the sentinel. -/
theorem depuncture_spec (inp punc : Nat → Int) (out : Nat → Int) (P : List Nat) (L : Nat)
    (hP : P.Pairwise (fun a b => a < b)) (hpunc : holds_punc punc P) :
    (depuncture inp punc out (L : Int)).1 = 0 ∧
    (∀ i, i < L → (depuncture inp punc out (L : Int)).2 i =
      if i ∈ P then 0 else inp (i - punct_below P i)) ∧
    (∀ i, L ≤ i → (depuncture inp punc out (L : Int)).2 i = out i) ∧
    (∀ i, i < L → (depuncture_loop inp punc out (i : Int)).n = punct_below P i ∧
      (depuncture_loop inp punc out (i : Int)).n ≤ P.length ∧
      ((i : Int) = punc (depuncture_loop inp punc out (i : Int)).n ↔ i ∈ P)) ∧
    (∀ punc2 : Nat → Int, (∀ k, k ≤ P.length → punc2 k = punc k) →
      depuncture inp punc2 out (L : Int) = depuncture inp punc out (L : Int)) := by
  have hout := (depuncture_inv inp punc out P hP hpunc L).2.2.2.2.2
  refine ⟨rfl, ?_, ?_, ?_, ?_⟩
  · intro i hi
    show (depuncture_loop inp punc out (L : Int)).out i = _
    rw [hout i, if_pos hi]
    rfl
  · intro i hi
    show (depuncture_loop inp punc out (L : Int)).out i = _
    rw [hout i, if_neg (by omega)]
  · intro i _
    obtain ⟨hn, _, hle, _⟩ := depuncture_inv inp punc out P hP hpunc i
    exact ⟨hn, hle, depuncture_branch inp punc out P hP hpunc i⟩
  · intro punc2 hagree
    have hpunc2 : holds_punc punc2 P :=
      ⟨fun k hk => by rw [hagree k (by omega)]; exact hpunc.1 k hk,
        by rw [hagree _ (Nat.le_refl _)]; exact hpunc.2⟩
    have hout2 := (depuncture_inv inp punc2 out P hP hpunc2 L).2.2.2.2.2
    unfold depuncture
    congr 1
    funext j
    rw [hout j, hout2 j]

/-- The sample puncture buffer holds the sample puncture list and its sentinel. -/
theorem punc_sample_holds : holds_punc punc_sample [1, 3] := by
  refine ⟨fun k hk => ?_, by decide⟩
  have hk2 : k < 2 := hk
  interval_cases k <;> rfl

/-- Witness of `depuncture_spec`: six output samples with the positions 1 and 3
punctured. -/
theorem depuncture_spec_witness :
    (List.Pairwise (fun a b => a < b) [1, 3] ∧ holds_punc punc_sample [1, 3]) ∧
    (List.range 6).map (depuncture (fun j => 10 + (j : Int)) punc_sample (fun _ => 7) 6).2 =
      [10, 0, 11, 0, 12, 13] ∧
    (depuncture (fun j => 10 + (j : Int)) punc_sample (fun _ => 7) ((6 : Nat) : Int)).2 4 =
      (if 4 ∈ [1, 3] then 0 else (fun j => 10 + (j : Int)) (4 - punct_below [1, 3] 4)) :=
  ⟨⟨by decide, punc_sample_holds⟩, by decide,
    (depuncture_spec (fun j => 10 + (j : Int)) punc_sample (fun _ => 7) [1, 3] 6 (by decide)
      punc_sample_holds).2.1 4 (by decide)⟩

/-- C11: after `reset_decoder(dec, term)` every `sums[s]` with `s` in `[1, S)` is 0,
and `sums[0]` is `127*N*K` when `term` is not TAIL_BITING and 0 when it is; for
every valid `(K, N)` the value `127*N*K` is at most 3556 and is stored in the
`int16_t` cell without change.  The other fields of the decoder are kept. -/
theorem reset_decoder_sums (dec : vdecoder) (term : osmo_conv_term)
    (hk : dec.k = 5 ∨ dec.k = 7) (hn : dec.n = 2 ∨ dec.n = 3 ∨ dec.n = 4)
    (hns : dec.trellis.num_states = NUM_STATES dec.k) :
    (∀ s : Nat, 1 ≤ s → (s : Int) < NUM_STATES dec.k →
      (reset_decoder dec term).trellis.sums s = 0) ∧
    (term ≠ CONV_TERM_TAIL_BITING →
      (reset_decoder dec term).trellis.sums 0 = 127 * dec.n * dec.k) ∧
    (term = CONV_TERM_TAIL_BITING → (reset_decoder dec term).trellis.sums 0 = 0) ∧
    (0 ≤ 127 * dec.n * dec.k ∧ 127 * dec.n * dec.k ≤ 3556 ∧
      to_int16 (INT8_MAX * dec.n * dec.k) = 127 * dec.n * dec.k) ∧
    ((reset_decoder dec term).trellis.vals = dec.trellis.vals ∧
      (reset_decoder dec term).trellis.outputs = dec.trellis.outputs ∧
      (reset_decoder dec term).paths_mem = dec.paths_mem) := by
  have hpos : (0 : Int) < NUM_STATES dec.k := by
    unfold NUM_STATES
    rcases hk with h | h <;> rw [h] <;> decide
  have hfit : 0 ≤ 127 * dec.n * dec.k ∧ 127 * dec.n * dec.k ≤ 3556 ∧
      to_int16 (INT8_MAX * dec.n * dec.k) = 127 * dec.n * dec.k := by
    rcases hk with h | h <;> rcases hn with h2 | h2 | h2 <;> rw [h, h2] <;> decide
  refine ⟨?_, ?_, ?_, hfit, rfl, rfl, rfl⟩
  · intro s hs1 hsS
    unfold reset_decoder
    dsimp only
    rw [hns]
    by_cases ht : term ≠ CONV_TERM_TAIL_BITING
    · rw [if_pos ht]
      unfold store
      rw [if_neg (by omega)]
      exact if_pos hsS
    · rw [if_neg ht]
      exact if_pos hsS
  · intro ht
    unfold reset_decoder
    dsimp only
    rw [if_pos ht]
    unfold store
    rw [if_pos rfl]
    exact hfit.2.2
  · intro ht
    unfold reset_decoder
    dsimp only
    rw [if_neg (not_not.mpr ht), hns]
    exact if_pos hpos

/-- Witness of `reset_decoder_sums` on `dec_sample`. -/
theorem reset_decoder_sums_witness :
    (reset_decoder dec_sample CONV_TERM_FLUSH).trellis.sums 0 = 1270 ∧
    (reset_decoder dec_sample CONV_TERM_FLUSH).trellis.sums 2 = 0 ∧
    (reset_decoder dec_sample CONV_TERM_TAIL_BITING).trellis.sums 0 = 0 :=
  ⟨(reset_decoder_sums dec_sample CONV_TERM_FLUSH (Or.inl rfl) (Or.inl rfl) rfl).2.1
      (by decide),
    (reset_decoder_sums dec_sample CONV_TERM_FLUSH (Or.inl rfl) (Or.inl rfl) rfl).1 2
      (by decide) (by decide),
    (reset_decoder_sums dec_sample CONV_TERM_TAIL_BITING (Or.inl rfl) (Or.inl rfl) rfl).2.2.1
      rfl⟩

/-- Invariant of the search loop of `traceback` after `n` iterations: either every
sum seen is negative and nothing was selected, or the selected state is the
smallest index attaining the largest sum seen. -/
theorem traceback_max_inv (dec : vdecoder) (n : Nat) :
    ((for_up (n : Int) (fun i (st : tb_max) =>
        if dec.trellis.sums i > st.max then { max := dec.trellis.sums i, state := i } else st)
        { max := -1, state := 0 }).max = -1 ∧
      (for_up (n : Int) (fun i (st : tb_max) =>
        if dec.trellis.sums i > st.max then { max := dec.trellis.sums i, state := i } else st)
        { max := -1, state := 0 }).state = 0 ∧
      ∀ s, s < n → dec.trellis.sums s < 0) ∨
    (0 ≤ (for_up (n : Int) (fun i (st : tb_max) =>
        if dec.trellis.sums i > st.max then { max := dec.trellis.sums i, state := i } else st)
        { max := -1, state := 0 }).max ∧
      (for_up (n : Int) (fun i (st : tb_max) =>
        if dec.trellis.sums i > st.max then { max := dec.trellis.sums i, state := i } else st)
        { max := -1, state := 0 }).state < n ∧
      dec.trellis.sums (for_up (n : Int) (fun i (st : tb_max) =>
        if dec.trellis.sums i > st.max then { max := dec.trellis.sums i, state := i } else st)
        { max := -1, state := 0 }).state =
        (for_up (n : Int) (fun i (st : tb_max) =>
        if dec.trellis.sums i > st.max then { max := dec.trellis.sums i, state := i } else st)
        { max := -1, state := 0 }).max ∧
      (∀ s, s < n → dec.trellis.sums s ≤ (for_up (n : Int) (fun i (st : tb_max) =>
        if dec.trellis.sums i > st.max then { max := dec.trellis.sums i, state := i } else st)
        { max := -1, state := 0 }).max) ∧
      ∀ s, s < (for_up (n : Int) (fun i (st : tb_max) =>
        if dec.trellis.sums i > st.max then { max := dec.trellis.sums i, state := i } else st)
        { max := -1, state := 0 }).state →
        dec.trellis.sums s < (for_up (n : Int) (fun i (st : tb_max) =>
        if dec.trellis.sums i > st.max then { max := dec.trellis.sums i, state := i } else st)
        { max := -1, state := 0 }).max) := by
  induction n with
  | zero =>
    left
    exact ⟨rfl, rfl, fun s hs => absurd hs (Nat.not_lt_zero s)⟩
  | succ n ih =>
    rw [Nat.cast_succ, for_up_succ]
    generalize for_up (n : Int) (fun i (st : tb_max) =>
        if dec.trellis.sums i > st.max then { max := dec.trellis.sums i, state := i } else st)
        { max := -1, state := 0 } = st at ih
    by_cases hgt : dec.trellis.sums n > st.max
    · rw [if_pos hgt]
      right
      dsimp only
      rcases ih with ⟨hm, _, hall⟩ | ⟨h0, _, _, hle, _⟩
      · refine ⟨by omega, by omega, rfl, ?_, ?_⟩
        · intro s hs
          rcases Nat.lt_or_ge s n with h | h
          · have := hall s h; omega
          · have e : s = n := by omega
            rw [e]
        · intro s hs
          have := hall s hs; omega
      · refine ⟨by omega, by omega, rfl, ?_, ?_⟩
        · intro s hs
          rcases Nat.lt_or_ge s n with h | h
          · have := hle s h; omega
          · have e : s = n := by omega
            rw [e]
        · intro s hs
          have := hle s hs; omega
    · rw [if_neg hgt]
      rcases ih with ⟨hm, hst, hall⟩ | ⟨h0, hlt, heq, hle, hlow⟩
      · left
        refine ⟨hm, hst, ?_⟩
        intro s hs
        rcases Nat.lt_or_ge s n with h | h
        · exact hall s h
        · have e : s = n := by omega
          rw [e]; omega
      · right
        refine ⟨h0, by omega, heq, ?_, hlow⟩
        intro s hs
        rcases Nat.lt_or_ge s n with h | h
        · exact hle s h
        · have e : s = n := by omega
          rw [e]; omega

/-- The search loop of `traceback`, read off its invariant for `S` states. -/
theorem traceback_max_spec (dec : vdecoder) (S : Nat) (hns : dec.trellis.num_states = (S : Int)) :
    ((traceback_max dec).max < 0 ↔ ∀ s, s < S → dec.trellis.sums s < 0) ∧
    (¬ (traceback_max dec).max < 0 →
      (traceback_max dec).state < S ∧
      (∀ s, s < S → dec.trellis.sums s ≤ dec.trellis.sums (traceback_max dec).state) ∧
      ∀ s, s < (traceback_max dec).state →
        dec.trellis.sums s < dec.trellis.sums (traceback_max dec).state) := by
  have inv := traceback_max_inv dec S
  have e : traceback_max dec = for_up (S : Int) (fun i (st : tb_max) =>
        if dec.trellis.sums i > st.max then { max := dec.trellis.sums i, state := i } else st)
        { max := -1, state := 0 } := by
    unfold traceback_max
    rw [hns]
  rw [← e] at inv
  rcases inv with ⟨hm, _, hall⟩ | ⟨h0, hlt, heq, hle, hlow⟩
  · refine ⟨⟨fun _ => hall, fun _ => by omega⟩, fun h => absurd (by omega) h⟩
  · refine ⟨⟨fun h => absurd h (by omega), fun hall => ?_⟩, fun _ => ⟨hlt, ?_, ?_⟩⟩
    · have := hall _ hlt
      omega
    · rw [heq]; exact hle
    · rw [heq]; exact hlow

/-- C12: terminal-state selection in `traceback`.  When `term` is FLUSH the
terminal state is 0 and `traceback` returns 0.  Otherwise `traceback` returns
`-EPROTO` if and only if every `sums[s]`, `s < S`, is negative; when it does not,
it returns 0 and traces back from the state found by the search, which is below
`S`, carries the largest sum, and is the smallest index that does. -/
theorem traceback_terminal (dec : vdecoder) (out : Nat → Nat) (term : osmo_conv_term)
    (len : Int) (S : Nat) (hns : dec.trellis.num_states = (S : Int)) :
    (term = CONV_TERM_FLUSH →
      (traceback dec out term len).1 = 0 ∧
      traceback dec out term len =
        (0, if dec.recursive ≠ 0 then _traceback_rec dec (traceback_tail dec 0 len) out len
            else _traceback dec (traceback_tail dec 0 len) out len)) ∧
    (term ≠ CONV_TERM_FLUSH →
      ((traceback dec out term len).1 = -EPROTO ↔ ∀ s, s < S → dec.trellis.sums s < 0) ∧
      (¬ (∀ s, s < S → dec.trellis.sums s < 0) →
        traceback dec out term len =
          (0, if dec.recursive ≠ 0 then
                _traceback_rec dec (traceback_tail dec (traceback_max dec).state len) out len
              else _traceback dec (traceback_tail dec (traceback_max dec).state len) out len) ∧
        (traceback_max dec).state < S ∧
        (∀ s, s < S → dec.trellis.sums s ≤ dec.trellis.sums (traceback_max dec).state) ∧
        ∀ s, s < (traceback_max dec).state →
          dec.trellis.sums s < dec.trellis.sums (traceback_max dec).state)) := by
  obtain ⟨hneg, hpos⟩ := traceback_max_spec dec S hns
  refine ⟨?_, ?_⟩
  · intro ht
    have e : traceback dec out term len =
        (0, if dec.recursive ≠ 0 then _traceback_rec dec (traceback_tail dec 0 len) out len
            else _traceback dec (traceback_tail dec 0 len) out len) := by
      unfold traceback
      dsimp only
      rw [if_neg (not_not.mpr ht), if_neg (fun h => h.1 ht)]
      by_cases hr : dec.recursive ≠ 0
      · rw [if_pos hr, if_pos hr]
      · rw [if_neg hr, if_neg hr]
    exact ⟨by rw [e], e⟩
  · intro ht
    have hfail : (traceback_max dec).max < 0 → traceback dec out term len = (-EPROTO, out) := by
      intro h
      unfold traceback
      dsimp only
      rw [if_pos ht, if_pos ⟨ht, h⟩]
    have hok : ¬ (traceback_max dec).max < 0 → traceback dec out term len =
          (0, if dec.recursive ≠ 0 then
                _traceback_rec dec (traceback_tail dec (traceback_max dec).state len) out len
              else _traceback dec (traceback_tail dec (traceback_max dec).state len) out len) := by
      intro h
      unfold traceback
      dsimp only
      rw [if_pos ht, if_neg (fun hc => h hc.2)]
      by_cases hr : dec.recursive ≠ 0
      · rw [if_pos hr, if_pos hr]
      · rw [if_neg hr, if_neg hr]
    refine ⟨⟨fun hrc => ?_, fun hall => ?_⟩, fun hnot => ?_⟩
    · by_contra hnall
      have hm : ¬ (traceback_max dec).max < 0 := fun h => hnall (hneg.mp h)
      rw [hok hm] at hrc
      have h2 : (0 : Int) = -EPROTO := hrc
      exact absurd h2 (by decide)
    · rw [hfail (hneg.mpr hall)]
    · have hm : ¬ (traceback_max dec).max < 0 := fun h => hnot (hneg.mp h)
      exact ⟨hok hm, hpos hm⟩

/-- Witness of `traceback_terminal`: on `dec_sample` the largest sum 9 is at the
states 2 and 3, and the search selects state 2. -/
theorem traceback_terminal_witness :
    (traceback_max dec_sample).state = 2 ∧
    (traceback dec_sample (fun _ => 7) CONV_TERM_FLUSH 3).1 = 0 ∧
    ((traceback dec_sample (fun _ => 7) CONV_TERM_TRUNCATION 3).1 = -EPROTO ↔
      ∀ s, s < 16 → dec_sample.trellis.sums s < 0) :=
  ⟨by decide,
    ((traceback_terminal dec_sample (fun _ => 7) CONV_TERM_FLUSH 3 16 rfl).1 rfl).1,
    ((traceback_terminal dec_sample (fun _ => 7) CONV_TERM_TRUNCATION 3 16 rfl).2
      (by decide)).1⟩


/-! ## Traceback -/

/-- The downward loop as a fold over the list of its indices `hi-1, .., lo`. -/
theorem for_down_eq {σ : Type} (hi lo : Int) (body : Int → σ → σ) (s : σ) :
    for_down hi lo body s =
      (((List.range (hi - lo).toNat).reverse).map (fun d : Nat => lo + (d : Int))).foldl
        (fun st i => body i st) s := by
  unfold for_down
  congr 1
  have hl : ∀ l : List Nat,
      @bind List _ Nat Int l (fun a => @pure List _ Int (@Nat.cast Int _ a)) =
        List.map (@Nat.cast Int _) l := by
    intro l
    induction l with
    | nil => rfl
    | cons a l ih =>
      show (@Nat.cast Int _ a) ::
        @bind List _ Nat Int l (fun a => @pure List _ Int (@Nat.cast Int _ a)) = _
      rw [ih]
      rfl
  rw [hl, List.map_map]
  rfl

/-- A downward loop with an empty range does nothing. -/
theorem for_down_self {σ : Type} (hi lo : Int) (h : hi ≤ lo) (body : Int → σ → σ) (s : σ) :
    for_down hi lo body s = s := by
  rw [for_down_eq]
  have e : (hi - lo).toNat = 0 := by omega
  rw [e]
  rfl

/-- Unfolding the last iteration (the lowest index) of a downward loop. -/
theorem for_down_pred {σ : Type} (hi lo : Int) (h : lo < hi) (body : Int → σ → σ) (s : σ) :
    for_down hi lo body s = body lo (for_down hi (lo + 1) body s) := by
  rw [for_down_eq, for_down_eq]
  obtain ⟨n, hn⟩ : ∃ n : Nat, (hi - (lo + 1)).toNat = n := ⟨_, rfl⟩
  have e : (hi - lo).toNat = n + 1 := by omega
  rw [e, hn, List.range_succ_eq_map, List.reverse_cons, List.map_append, List.foldl_append,
    List.map_reverse, List.map_map]
  have hm : ((fun d : Nat => lo + (d : Int)) ∘ Nat.succ) = fun d : Nat => lo + 1 + (d : Int) := by
    funext d
    simp only [Function.comp, Nat.succ_eq_add_one, Nat.cast_add, Nat.cast_one]
    omega
  rw [hm]
  simp

/-- A downward loop can be split at any index of its range. -/
theorem for_down_split {σ : Type} (hi : Int) (lo : Int) (d : Nat) (h : lo + d ≤ hi)
    (body : Int → σ → σ) (s : σ) :
    for_down hi lo body s = for_down (lo + d) lo body (for_down hi (lo + d) body s) := by
  induction d generalizing lo with
  | zero =>
    simp only [Nat.cast_zero, add_zero]
    rw [for_down_self lo lo (le_refl _)]
  | succ d ih =>
    have h1 : lo < hi := by push_cast at h; omega
    have h2 : lo < lo + ((d + 1 : Nat) : Int) := by push_cast; omega
    rw [for_down_pred hi lo h1, for_down_pred (lo + ((d + 1 : Nat) : Int)) lo h2]
    have e : lo + ((d + 1 : Nat) : Int) = (lo + 1) + (d : Int) := by push_cast; omega
    rw [e, ← ih (lo + 1) (by push_cast at h; omega)]

/-- An `unsigned` value passed through an `int` parameter comes back unchanged. -/
theorem to_unsigned_to_int (x : Int) : to_unsigned (to_int (to_unsigned x)) = to_unsigned x := by
  unfold to_int to_unsigned
  have h1 : 0 ≤ x % 4294967296 := Int.emod_nonneg x (by decide)
  have h2 : x % 4294967296 < 4294967296 := Int.emod_lt_of_pos x (by decide)
  split <;> omega

/-- The state update of the traceback in the words of the specification. -/
theorem tb_step_spec (dec : vdecoder) (i : Nat) (state : Nat) (hk : dec.k = 5 ∨ dec.k = 7) :
    tb_step dec (i : Int) state = spec_prev_state dec i state := by
  unfold tb_step spec_prev_state vstate_lshift tb_path spec_path
  have hm : lshift_mask dec.k = spec_mask dec.k := by
    unfold lshift_mask spec_mask
    rcases hk with h | h <;> rw [h] <;> rfl
  have hlt : spec_mask dec.k < 2 ^ 32 := by
    unfold spec_mask
    rcases hk with h | h <;> rw [h] <;> decide
  rw [hm, to_unsigned_to_int, Int.toNat_ofNat]
  congr 1
  exact (land_small (state <<< 1) (spec_mask dec.k) 32 hlt).symm

/-- The states of the traceback loops are the states of the specification. -/
theorem tb_states_spec (dec : vdecoder) (t top : Nat) (hk : dec.k = 5 ∨ dec.k = 7) (d : Nat)
    (hd : d ≤ top) :
    for_down (top : Int) ((top - d : Nat) : Int) (tb_step dec) t = spec_back dec t top d := by
  induction d with
  | zero =>
    rw [for_down_self _ _ (by omega)]
    rfl
  | succ d ih =>
    have e : (((top - (d + 1) : Nat) : Int) + 1) = ((top - d : Nat) : Int) := by omega
    rw [for_down_pred _ _ (by omega), e, ih (by omega), tb_step_spec dec _ _ hk]
    rfl

/-- The states of the traceback loops, by column. -/
theorem tb_state_at (dec : vdecoder) (t top j : Nat) (hk : dec.k = 5 ∨ dec.k = 7)
    (hj : j ≤ top) :
    for_down (top : Int) (j : Int) (tb_step dec) t = spec_state dec t top j := by
  have h := tb_states_spec dec t top hk (top - j) (by omega)
  have e : top - (top - j) = j := by omega
  rw [e] at h
  exact h

/-- Recurrence of the states of the specification. -/
theorem spec_state_rec (dec : vdecoder) (t top j : Nat) (hj : j < top) :
    spec_state dec t top j = spec_prev_state dec j (spec_state dec t top (j + 1)) := by
  unfold spec_state
  have e : top - j = (top - (j + 1)) + 1 := by omega
  rw [e]
  show spec_prev_state dec (top - (top - (j + 1) + 1)) _ = _
  have e2 : top - (top - (j + 1) + 1) = j := by omega
  rw [e2]

/-- The loop of `_traceback` over the columns `hi-1 .. lo`: the state follows
`tb_step` and `out[j]` receives `vals[state]` for the state held before column `j`. -/
theorem traceback_loop (dec : vdecoder) (s : Nat) (out : Nat → Nat) (hi : Nat) (d : Nat)
    (hd : d ≤ hi) :
    (for_down (hi : Int) ((hi - d : Nat) : Int) (fun i (st : tb_state) =>
        ({ state := vstate_lshift st.state dec.k (to_int (tb_path dec i st.state)),
           out := store st.out i.toNat (to_uint8 (dec.trellis.vals st.state)) } : tb_state))
        { state := s, out := out }).state =
      for_down (hi : Int) ((hi - d : Nat) : Int) (tb_step dec) s ∧
    ∀ j, (for_down (hi : Int) ((hi - d : Nat) : Int) (fun i (st : tb_state) =>
        ({ state := vstate_lshift st.state dec.k (to_int (tb_path dec i st.state)),
           out := store st.out i.toNat (to_uint8 (dec.trellis.vals st.state)) } : tb_state))
        { state := s, out := out }).out j =
      if hi - d ≤ j ∧ j < hi then
        to_uint8 (dec.trellis.vals (for_down (hi : Int) ((j + 1 : Nat) : Int) (tb_step dec) s))
      else out j := by
  induction d with
  | zero =>
    rw [for_down_self _ _ (by omega), for_down_self _ _ (by omega)]
    refine ⟨rfl, fun j => ?_⟩
    rw [if_neg (by omega)]
  | succ d ih =>
    obtain ⟨ihs, iho⟩ := ih (by omega)
    have e : (((hi - (d + 1) : Nat) : Int) + 1) = ((hi - d : Nat) : Int) := by omega
    rw [for_down_pred _ _ (by omega), for_down_pred (hi : Int) _ (by omega) (tb_step dec), e]
    generalize for_down (hi : Int) ((hi - d : Nat) : Int) (fun i (st : tb_state) =>
        ({ state := vstate_lshift st.state dec.k (to_int (tb_path dec i st.state)),
           out := store st.out i.toNat (to_uint8 (dec.trellis.vals st.state)) } : tb_state))
        { state := s, out := out } = r at ihs iho
    dsimp only
    refine ⟨by rw [ihs]; rfl, fun j => ?_⟩
    unfold store
    rw [Int.toNat_ofNat]
    by_cases hj : j = hi - (d + 1)
    · rw [if_pos hj, if_pos (by omega), ihs]
      have e2 : ((j + 1 : Nat) : Int) = ((hi - d : Nat) : Int) := by omega
      rw [e2]
    · rw [if_neg hj, iho j]
      by_cases hc : hi - d ≤ j ∧ j < hi
      · rw [if_pos hc, if_pos (by omega)]
      · rw [if_neg hc, if_neg (by omega)]

/-- The loop of `_traceback_rec` over the columns `hi-1 .. lo`. -/
theorem traceback_rec_loop (dec : vdecoder) (s : Nat) (out : Nat → Nat) (hi : Nat) (d : Nat)
    (hd : d ≤ hi) :
    (for_down (hi : Int) ((hi - d : Nat) : Int) (fun i (st : tb_state) =>
        ({ state := vstate_lshift st.state dec.k (to_int (tb_path dec i st.state)),
           out := store st.out i.toNat
             (to_uint8 (tb_path dec i st.state ^^^ dec.trellis.vals st.state)) } : tb_state))
        { state := s, out := out }).state =
      for_down (hi : Int) ((hi - d : Nat) : Int) (tb_step dec) s ∧
    ∀ j, (for_down (hi : Int) ((hi - d : Nat) : Int) (fun i (st : tb_state) =>
        ({ state := vstate_lshift st.state dec.k (to_int (tb_path dec i st.state)),
           out := store st.out i.toNat
             (to_uint8 (tb_path dec i st.state ^^^ dec.trellis.vals st.state)) } : tb_state))
        { state := s, out := out }).out j =
      if hi - d ≤ j ∧ j < hi then
        to_uint8 (tb_path dec (j : Int)
            (for_down (hi : Int) ((j + 1 : Nat) : Int) (tb_step dec) s) ^^^
          dec.trellis.vals (for_down (hi : Int) ((j + 1 : Nat) : Int) (tb_step dec) s))
      else out j := by
  induction d with
  | zero =>
    rw [for_down_self _ _ (by omega), for_down_self _ _ (by omega)]
    refine ⟨rfl, fun j => ?_⟩
    rw [if_neg (by omega)]
  | succ d ih =>
    obtain ⟨ihs, iho⟩ := ih (by omega)
    have e : (((hi - (d + 1) : Nat) : Int) + 1) = ((hi - d : Nat) : Int) := by omega
    rw [for_down_pred _ _ (by omega), for_down_pred (hi : Int) _ (by omega) (tb_step dec), e]
    generalize for_down (hi : Int) ((hi - d : Nat) : Int) (fun i (st : tb_state) =>
        ({ state := vstate_lshift st.state dec.k (to_int (tb_path dec i st.state)),
           out := store st.out i.toNat
             (to_uint8 (tb_path dec i st.state ^^^ dec.trellis.vals st.state)) } : tb_state))
        { state := s, out := out } = r at ihs iho
    dsimp only
    refine ⟨by rw [ihs]; rfl, fun j => ?_⟩
    unfold store
    rw [Int.toNat_ofNat]
    by_cases hj : j = hi - (d + 1)
    · rw [if_pos hj, if_pos (by omega), ihs]
      have e2 : ((j + 1 : Nat) : Int) = ((hi - d : Nat) : Int) := by omega
      rw [e2, hj]
    · rw [if_neg hj, iho j]
      by_cases hc : hi - d ≤ j ∧ j < hi
      · rw [if_pos hc, if_pos (by omega)]
      · rw [if_neg hc, if_neg (by omega)]

/-- A successful `traceback` is the traceback from the terminal state rolled back
through the tail columns. -/
theorem traceback_ok_eq (dec : vdecoder) (out : Nat → Nat) (term : osmo_conv_term) (len : Int)
    (hok : (traceback dec out term len).1 = 0) :
    traceback dec out term len =
      (0, if dec.recursive ≠ 0 then
            _traceback_rec dec (traceback_tail dec (terminal_state dec term) len) out len
          else _traceback dec (traceback_tail dec (terminal_state dec term) len) out len) := by
  unfold traceback terminal_state at *
  dsimp only at *
  by_cases ht : term ≠ CONV_TERM_FLUSH
  · rw [if_pos ht] at hok ⊢
    rw [if_pos ht]
    by_cases hm : term ≠ CONV_TERM_FLUSH ∧ (traceback_max dec).max < 0
    · rw [if_pos hm] at hok
      have h2 : (-EPROTO : Int) = 0 := hok
      exact absurd h2 (by decide)
    · rw [if_neg hm]
      by_cases hr : dec.recursive ≠ 0
      · rw [if_pos hr, if_pos hr]
      · rw [if_neg hr, if_neg hr]
  · rw [if_neg ht, if_neg ht, if_neg (fun h => ht h.1)]
    by_cases hr : dec.recursive ≠ 0
    · rw [if_pos hr, if_pos hr]
    · rw [if_neg hr, if_neg hr]

/-- What `_traceback` stores. -/
theorem _traceback_out (dec : vdecoder) (s : Nat) (out : Nat → Nat) (L : Nat) (j : Nat) :
    _traceback dec s out (L : Int) j =
      if j < L then
        to_uint8 (dec.trellis.vals (for_down (L : Int) ((j + 1 : Nat) : Int) (tb_step dec) s))
      else out j := by
  have h := (traceback_loop dec s out L L (le_refl _)).2 j
  have e : ((L - L : Nat) : Int) = 0 := by omega
  rw [e] at h
  unfold _traceback
  rw [h]
  by_cases hj : j < L
  · rw [if_pos hj, if_pos (by omega)]
  · rw [if_neg hj, if_neg (by omega)]

/-- What `_traceback_rec` stores. -/
theorem _traceback_rec_out (dec : vdecoder) (s : Nat) (out : Nat → Nat) (L : Nat) (j : Nat) :
    _traceback_rec dec s out (L : Int) j =
      if j < L then
        to_uint8 (tb_path dec (j : Int)
            (for_down (L : Int) ((j + 1 : Nat) : Int) (tb_step dec) s) ^^^
          dec.trellis.vals (for_down (L : Int) ((j + 1 : Nat) : Int) (tb_step dec) s))
      else out j := by
  have h := (traceback_rec_loop dec s out L L (le_refl _)).2 j
  have e : ((L - L : Nat) : Int) = 0 := by omega
  rw [e] at h
  unfold _traceback_rec
  rw [h]
  by_cases hj : j < L
  · rw [if_pos hj, if_pos (by omega)]
  · rw [if_neg hj, if_neg (by omega)]

/-- The state held by the output loops before column `j` is the state of the
whole roll-back from the terminal state. -/
theorem tb_state_join (dec : vdecoder) (t L L' j : Nat) (hL : L ≤ L') (hj : j ≤ L)
    (hlen : dec.len = (L' : Int)) :
    for_down (L : Int) (j : Int) (tb_step dec) (traceback_tail dec t (L : Int)) =
      for_down (L' : Int) (j : Int) (tb_step dec) t := by
  have h := for_down_split (L' : Int) (j : Int) (L - j) (by omega) (tb_step dec) t
  have e : (j : Int) + ((L - j : Nat) : Int) = (L : Int) := by omega
  rw [e] at h
  rw [h]
  unfold traceback_tail tb_step
  rw [hlen]

/-- C13: traceback output formula.  Let `state_{len'}` be the terminal state and
`state_j = ((state_{j+1} << 1) & mask) | path_j` with
`path_j = paths[j][state_{j+1}] + 1` for the columns `j` from `len'-1` down to 0
(the columns `len'-1 .. len` roll the terminal state back to `state_len`).  Then a
successful `traceback` stores, for every `i < len`, `out[i] = vals[state_{i+1}]`
for a non-recursive code and `out[i] = path_i XOR vals[state_{i+1}]` for a
recursive code, as values of the `uint8_t` cell, and leaves the other cells. -/
theorem traceback_output (dec : vdecoder) (out : Nat → Nat) (term : osmo_conv_term)
    (L L' : Nat) (hk : dec.k = 5 ∨ dec.k = 7) (hL : L ≤ L') (hlen : dec.len = (L' : Int))
    (hok : (traceback dec out term (L : Int)).1 = 0) :
    spec_state dec (terminal_state dec term) L' L' = terminal_state dec term ∧
    (∀ j, j < L' → spec_state dec (terminal_state dec term) L' j =
      ((spec_state dec (terminal_state dec term) L' (j + 1) <<< 1) &&& spec_mask dec.k) |||
        to_unsigned (dec.paths_mem (dec.paths j +
          spec_state dec (terminal_state dec term) L' (j + 1)) + 1)) ∧
    traceback_tail dec (terminal_state dec term) (L : Int) =
      spec_state dec (terminal_state dec term) L' L ∧
    (dec.recursive = 0 → ∀ i, i < L → (traceback dec out term (L : Int)).2 i =
      to_uint8 (dec.trellis.vals (spec_state dec (terminal_state dec term) L' (i + 1)))) ∧
    (dec.recursive ≠ 0 → ∀ i, i < L → (traceback dec out term (L : Int)).2 i =
      to_uint8 (to_unsigned (spec_path dec i (spec_state dec (terminal_state dec term) L' (i + 1)))
        ^^^ dec.trellis.vals (spec_state dec (terminal_state dec term) L' (i + 1)))) ∧
    (∀ i, L ≤ i → (traceback dec out term (L : Int)).2 i = out i) ∧
    ((∀ s, dec.trellis.vals s < 256) → dec.recursive = 0 → ∀ i, i < L →
      (traceback dec out term (L : Int)).2 i =
        dec.trellis.vals (spec_state dec (terminal_state dec term) L' (i + 1))) ∧
    ((∀ s, dec.trellis.vals s < 256) → (∀ a, dec.paths_mem a = -1 ∨ dec.paths_mem a = 0) →
      dec.recursive ≠ 0 → ∀ i, i < L →
      (traceback dec out term (L : Int)).2 i =
        (spec_path dec i (spec_state dec (terminal_state dec term) L' (i + 1))).toNat ^^^
          dec.trellis.vals (spec_state dec (terminal_state dec term) L' (i + 1))) := by
  have heq := traceback_ok_eq dec out term (L : Int) hok
  have hst : ∀ j, j ≤ L → for_down (L : Int) (j : Int) (tb_step dec)
      (traceback_tail dec (terminal_state dec term) (L : Int)) =
      spec_state dec (terminal_state dec term) L' j := by
    intro j hj
    rw [tb_state_join dec _ L L' j hL hj hlen, tb_state_at dec _ L' j hk (by omega)]
  have hnr : dec.recursive = 0 → ∀ i, i < L → (traceback dec out term (L : Int)).2 i =
      to_uint8 (dec.trellis.vals (spec_state dec (terminal_state dec term) L' (i + 1))) := by
    intro hr i hi
    rw [heq, if_neg (not_not.mpr hr)]
    show _traceback dec _ out (L : Int) i = _
    rw [_traceback_out, if_pos hi, hst (i + 1) (by omega)]
  have hrec : dec.recursive ≠ 0 → ∀ i, i < L → (traceback dec out term (L : Int)).2 i =
      to_uint8 (to_unsigned (spec_path dec i (spec_state dec (terminal_state dec term) L' (i + 1)))
        ^^^ dec.trellis.vals (spec_state dec (terminal_state dec term) L' (i + 1))) := by
    intro hr i hi
    rw [heq, if_pos hr]
    show _traceback_rec dec _ out (L : Int) i = _
    rw [_traceback_rec_out, if_pos hi, hst (i + 1) (by omega)]
    unfold tb_path spec_path
    rw [Int.toNat_ofNat]
  refine ⟨?_, ?_, ?_, hnr, hrec, ?_, ?_, ?_⟩
  · unfold spec_state
    rw [Nat.sub_self]
    rfl
  · intro j hj
    rw [spec_state_rec dec _ L' j hj]
    rfl
  · have h := hst L (le_refl _)
    rw [for_down_self _ _ (le_refl _)] at h
    exact h
  · intro i hi
    rw [heq]
    by_cases hr : dec.recursive ≠ 0
    · rw [if_pos hr]
      show _traceback_rec dec _ out (L : Int) i = _
      rw [_traceback_rec_out, if_neg (by omega)]
    · rw [if_neg hr]
      show _traceback dec _ out (L : Int) i = _
      rw [_traceback_out, if_neg (by omega)]
  · intro hv hr i hi
    rw [hnr hr i hi]
    exact Nat.mod_eq_of_lt (hv _)
  · intro hv hp hr i hi
    rw [hrec hr i hi]
    have hpath : to_unsigned (spec_path dec i
        (spec_state dec (terminal_state dec term) L' (i + 1))) =
        (spec_path dec i (spec_state dec (terminal_state dec term) L' (i + 1))).toNat ∧
        (spec_path dec i (spec_state dec (terminal_state dec term) L' (i + 1))).toNat < 256 := by
      unfold spec_path to_unsigned
      rcases hp (dec.paths i + spec_state dec (terminal_state dec term) L' (i + 1)) with h | h
      · rw [h]; decide
      · rw [h]; decide
    rw [hpath.1]
    exact Nat.mod_eq_of_lt (Nat.xor_lt_two_pow (n := 8) hpath.2 (hv _))

/-- Witness of `traceback_output`: three bits traced back on `dec_sample` from the
terminal state 2 found by the search. -/
theorem traceback_output_witness :
    (traceback dec_sample (fun _ => 7) CONV_TERM_TRUNCATION ((3 : Nat) : Int)).1 = 0 ∧
    (List.range 4).map
      (traceback dec_sample (fun _ => 7) CONV_TERM_TRUNCATION ((3 : Nat) : Int)).2 =
      [1, 0, 0, 7] ∧
    (List.range 4).map (spec_state dec_sample (terminal_state dec_sample CONV_TERM_TRUNCATION) 3)
      = [0, 8, 4, 2] ∧
    (traceback dec_sample (fun _ => 7) CONV_TERM_TRUNCATION ((3 : Nat) : Int)).2 0 =
      to_uint8 (dec_sample.trellis.vals
        (spec_state dec_sample (terminal_state dec_sample CONV_TERM_TRUNCATION) 3 (0 + 1))) :=
  ⟨by decide, by decide, by decide,
    (traceback_output dec_sample (fun _ => 7) CONV_TERM_TRUNCATION 3 3 (Or.inl rfl) (le_refl _)
      rfl (by decide)).2.2.2.1 rfl 0 (by decide)⟩


/-! ## State range of the traceback -/

/-- Exhaustive check of `vstate_lshift` for `K = 5`. -/
theorem vstate_lshift_table5 : ∀ s < 16, ∀ v < 2,
    vstate_lshift s 5 ((v : Nat) : Int) = 2 * s % 16 + v ∧ vstate_lshift s 5 ((v : Nat) : Int) < 16 := by
  decide

set_option maxRecDepth 100000 in
/-- Exhaustive check of `vstate_lshift` for `K = 7`. -/
theorem vstate_lshift_table7 : ∀ s < 64, ∀ v < 2,
    vstate_lshift s 7 ((v : Nat) : Int) = 2 * s % 64 + v ∧ vstate_lshift s 7 ((v : Nat) : Int) < 64 := by
  decide

/-- Function `vstate_lshift` on a state below `S` and a bit. -/
theorem vstate_lshift_lt (K : Int) (hK : K = 5 ∨ K = 7) (s v : Nat)
    (hs : (s : Int) < NUM_STATES K) (hv : v ≤ 1) :
    vstate_lshift s K ((v : Nat) : Int) = 2 * s % (NUM_STATES K).toNat + v ∧
    ((vstate_lshift s K ((v : Nat) : Int) : Nat) : Int) < NUM_STATES K := by
  rcases hK with h | h
  · rw [h] at hs ⊢
    have hs' : s < 16 := by
      have : NUM_STATES 5 = 16 := rfl
      omega
    obtain ⟨h1, h2⟩ := vstate_lshift_table5 s hs' v (by omega)
    refine ⟨h1, ?_⟩
    have : NUM_STATES 5 = 16 := rfl
    omega
  · rw [h] at hs ⊢
    have hs' : s < 64 := by
      have : NUM_STATES 7 = 64 := rfl
      omega
    obtain ⟨h1, h2⟩ := vstate_lshift_table7 s hs' v (by omega)
    refine ⟨h1, ?_⟩
    have : NUM_STATES 7 = 64 := rfl
    omega

/-- With path entries in `{-1, 0}` the value `path` is 0 or 1. -/
theorem tb_path_bit (dec : vdecoder) (i : Int) (state : Nat)
    (hp : ∀ a, dec.paths_mem a = -1 ∨ dec.paths_mem a = 0) :
    tb_path dec i state ≤ 1 ∧
    to_int (tb_path dec i state) = ((tb_path dec i state : Nat) : Int) := by
  unfold tb_path
  rcases hp (dec.paths i.toNat + state) with h | h
  · rw [h]; decide
  · rw [h]; decide

/-- With path entries in `{-1, 0}` the state update keeps the state below `S`. -/
theorem tb_step_lt (dec : vdecoder) (i : Int) (state : Nat) (hk : dec.k = 5 ∨ dec.k = 7)
    (hp : ∀ a, dec.paths_mem a = -1 ∨ dec.paths_mem a = 0)
    (hs : (state : Int) < NUM_STATES dec.k) :
    ((tb_step dec i state : Nat) : Int) < NUM_STATES dec.k := by
  unfold tb_step
  obtain ⟨h1, h2⟩ := tb_path_bit dec i state hp
  rw [h2]
  exact (vstate_lshift_lt dec.k hk state _ hs h1).2

/-- With path entries in `{-1, 0}` every state of a roll-back from a state below
`S` is below `S`. -/
theorem tb_states_lt (dec : vdecoder) (t top : Nat) (hk : dec.k = 5 ∨ dec.k = 7)
    (hp : ∀ a, dec.paths_mem a = -1 ∨ dec.paths_mem a = 0)
    (ht : (t : Int) < NUM_STATES dec.k) (d : Nat) (hd : d ≤ top) :
    ((for_down (top : Int) ((top - d : Nat) : Int) (tb_step dec) t : Nat) : Int) <
      NUM_STATES dec.k := by
  induction d with
  | zero =>
    rw [for_down_self _ _ (by omega)]
    exact ht
  | succ d ih =>
    have e : (((top - (d + 1) : Nat) : Int) + 1) = ((top - d : Nat) : Int) := by omega
    rw [for_down_pred _ _ (by omega), e]
    exact tb_step_lt dec _ _ hk hp (ih (by omega))

/-- The terminal state of a successful `traceback` is below `S`. -/
theorem terminal_state_lt (dec : vdecoder) (out : Nat → Nat) (term : osmo_conv_term) (len : Int)
    (hns : dec.trellis.num_states = NUM_STATES dec.k)
    (hok : (traceback dec out term len).1 = 0) :
    ((terminal_state dec term : Nat) : Int) < NUM_STATES dec.k := by
  obtain ⟨n, hn⟩ := NUM_STATES_pred dec.k
  unfold terminal_state
  by_cases ht : term ≠ CONV_TERM_FLUSH
  · rw [if_pos ht]
    have hm : ¬ (traceback_max dec).max < 0 := by
      intro hm
      unfold traceback at hok
      dsimp only at hok
      rw [if_pos ht, if_pos ⟨ht, hm⟩] at hok
      have h2 : (-EPROTO : Int) = 0 := hok
      exact absurd h2 (by decide)
    have hS : dec.trellis.num_states = ((n + 1 : Nat) : Int) := by rw [hns, hn]; push_cast; rfl
    have := ((traceback_max_spec dec (n + 1) hS).2 hm).1
    rw [hn]
    omega
  · rw [if_neg ht, hn]
    omega

/-- The path entries of `dec_sample` are in `{-1, 0}`. -/
theorem dec_sample_paths : ∀ a, dec_sample.paths_mem a = -1 ∨ dec_sample.paths_mem a = 0 := by
  intro a
  show (if a % 2 = 0 then (-1 : Int) else 0) = -1 ∨ (if a % 2 = 0 then (-1 : Int) else 0) = 0
  by_cases h : a % 2 = 0
  · rw [if_pos h]; exact Or.inl rfl
  · rw [if_neg h]; exact Or.inr rfl

/-- The fields of a decoder returned by `alloc_vdec`. -/
theorem alloc_vdec_fields (env : Env) (code : osmo_conv_code) (dec : vdecoder)
    (h : alloc_vdec env code = Except.ok (some dec)) :
    dec.n = code.N ∧ dec.k = code.K ∧
    dec.len = (if code.term = CONV_TERM_FLUSH then code.len + code.K - 1 else code.len) ∧
    dec.recursive = conv_code_recursive code ∧
    dec.intrvl = Int.tdiv INT16_MAX (code.N * INT8_MAX) - code.K ∧
    generate_trellis env code = some dec.trellis ∧
    dec.paths = (fun i => i * (NUM_STATES code.K).toNat) ∧
    dec.paths_mem = env.paths_block ∧
    select_metric_func env code.K code.N = some dec.metric_func := by
  unfold alloc_vdec at h
  dsimp only at h
  cases hsel : select_metric_func env code.K code.N with
  | none => rw [hsel] at h; exact absurd h (by simp [alloc_vdec_fail, free_vdec])
  | some f =>
    rw [hsel] at h
    dsimp only at h
    cases hgen : generate_trellis env code with
    | none => rw [hgen] at h; exact absurd h (by simp [alloc_vdec_fail, free_vdec])
    | some t =>
      rw [hgen] at h
      dsimp only at h
      have := Option.some.inj (Except.ok.inj h)
      subst this
      exact ⟨rfl, rfl, rfl, rfl, rfl, rfl, rfl, rfl, rfl⟩

/-- The trellis returned by `generate_trellis` has `NUM_STATES(K)` states. -/
theorem generate_trellis_num_states (env : Env) (code : osmo_conv_code) (t : vtrellis)
    (h : generate_trellis env code = some t) : t.num_states = NUM_STATES code.K := by
  unfold generate_trellis at h
  dsimp only at h
  cases hs : env.sums_block with
  | none => rw [hs] at h; exact absurd h (by simp)
  | some sums =>
    cases ho : env.outputs_block with
    | none => rw [hs, ho] at h; exact absurd h (by simp)
    | some outs =>
      rw [hs, ho] at h
      dsimp only at h
      by_cases hrc : (for_up (NUM_STATES code.K)
          (trellis_fill_step code (conv_code_recursive code) (if code.N = 2 then 2 else 4))
          { rc := -1, vals := env.vals_block, outputs := outs }).rc < 0
      · rw [if_pos hrc] at h
        exact absurd h (by simp)
      · rw [if_neg hrc] at h
        have := Option.some.inj h
        subst this
        rfl

/-- The value stored for a state by the trellis loop is a bit. -/
theorem trellis_val_le (code : osmo_conv_code) (s : Nat) : trellis_val code s ≤ 1 := by
  unfold trellis_val
  by_cases hr : conv_code_recursive code ≠ 0
  · rw [if_pos hr]
    cases hnto : code.next_term_output <;>
      simp only [gen_recursive_output, hnto] <;> split_ifs <;> omega
  · rw [if_neg hr, to_uint8_bit]
    exact Nat.and_le_right

/-- One kernel call keeps every field of the decoder but the sums and the path
memory. -/
theorem conv_decode_step_fields (seq : Nat → Int) (i : Nat) (dec : vdecoder) :
    (conv_decode_step seq i dec).n = dec.n ∧ (conv_decode_step seq i dec).k = dec.k ∧
    (conv_decode_step seq i dec).len = dec.len ∧
    (conv_decode_step seq i dec).recursive = dec.recursive ∧
    (conv_decode_step seq i dec).intrvl = dec.intrvl ∧
    (conv_decode_step seq i dec).paths = dec.paths ∧
    (conv_decode_step seq i dec).metric_func = dec.metric_func ∧
    (conv_decode_step seq i dec).trellis.num_states = dec.trellis.num_states ∧
    (conv_decode_step seq i dec).trellis.outputs = dec.trellis.outputs ∧
    (conv_decode_step seq i dec).trellis.vals = dec.trellis.vals :=
  ⟨rfl, rfl, rfl, rfl, rfl, rfl, rfl, rfl, rfl, rfl⟩

/-- The kernel calls of the first `m` columns keep every field of the decoder but
the sums and the path memory. -/
theorem conv_decode_prefix_fields (seq : Nat → Int) (dec : vdecoder) (m : Nat) :
    (for_up (m : Int) (conv_decode_step seq) dec).n = dec.n ∧
    (for_up (m : Int) (conv_decode_step seq) dec).k = dec.k ∧
    (for_up (m : Int) (conv_decode_step seq) dec).len = dec.len ∧
    (for_up (m : Int) (conv_decode_step seq) dec).recursive = dec.recursive ∧
    (for_up (m : Int) (conv_decode_step seq) dec).intrvl = dec.intrvl ∧
    (for_up (m : Int) (conv_decode_step seq) dec).paths = dec.paths ∧
    (for_up (m : Int) (conv_decode_step seq) dec).metric_func = dec.metric_func ∧
    (for_up (m : Int) (conv_decode_step seq) dec).trellis.num_states = dec.trellis.num_states ∧
    (for_up (m : Int) (conv_decode_step seq) dec).trellis.outputs = dec.trellis.outputs ∧
    (for_up (m : Int) (conv_decode_step seq) dec).trellis.vals = dec.trellis.vals := by
  induction m with
  | zero => exact ⟨rfl, rfl, rfl, rfl, rfl, rfl, rfl, rfl, rfl, rfl⟩
  | succ m ih =>
    rw [Nat.cast_succ, for_up_succ]
    obtain ⟨h1, h2, h3, h4, h5, h6, h7, h8, h9, h10⟩ := ih
    obtain ⟨g1, g2, g3, g4, g5, g6, g7, g8, g9, g10⟩ :=
      conv_decode_step_fields seq m (for_up (m : Int) (conv_decode_step seq) dec)
    exact ⟨g1.trans h1, g2.trans h2, g3.trans h3, g4.trans h4, g5.trans h5, g6.trans h6,
      g7.trans h7, g8.trans h8, g9.trans h9, g10.trans h10⟩

/-- Function `_conv_decode` keeps every field of the decoder but the sums and the
path memory. -/
theorem _conv_decode_fields (dec : vdecoder) (seq : Nat → Int) :
    (_conv_decode dec seq).n = dec.n ∧ (_conv_decode dec seq).k = dec.k ∧
    (_conv_decode dec seq).len = dec.len ∧
    (_conv_decode dec seq).recursive = dec.recursive ∧
    (_conv_decode dec seq).intrvl = dec.intrvl ∧
    (_conv_decode dec seq).paths = dec.paths ∧
    (_conv_decode dec seq).metric_func = dec.metric_func ∧
    (_conv_decode dec seq).trellis.num_states = dec.trellis.num_states ∧
    (_conv_decode dec seq).trellis.outputs = dec.trellis.outputs ∧
    (_conv_decode dec seq).trellis.vals = dec.trellis.vals := by
  unfold _conv_decode
  rw [for_up_toNat]
  exact conv_decode_prefix_fields seq dec _

/-- The decoder handed to `traceback` by `conv_decode`: the one given, with new
sums and path memory. -/
theorem conv_decode_dec (env : Env) (dec : vdecoder) (seq : Nat → Int)
    (punc : Option (Nat → Int)) (out : Nat → Nat) (len : Int) (term : osmo_conv_term) :
    ∃ dec1, conv_decode env dec seq punc out len term = traceback dec1 out term len ∧
      dec1.n = dec.n ∧ dec1.k = dec.k ∧ dec1.len = dec.len ∧ dec1.recursive = dec.recursive ∧
      dec1.trellis.num_states = dec.trellis.num_states ∧
      dec1.trellis.vals = dec.trellis.vals := by
  unfold conv_decode
  dsimp only
  generalize (match punc with
    | some p => (depuncture seq p env.depunc_block
        ((reset_decoder dec term).len * (reset_decoder dec term).n)).2
    | none => seq) = seq1
  obtain ⟨a1, a2, a3, a4, _, _, _, a8, _, a10⟩ := _conv_decode_fields (reset_decoder dec term) seq1
  by_cases ht : term = CONV_TERM_TAIL_BITING
  · rw [if_pos ht]
    obtain ⟨b1, b2, b3, b4, _, _, _, b8, _, b10⟩ :=
      _conv_decode_fields (_conv_decode (reset_decoder dec term) seq1) seq1
    exact ⟨_, rfl, b1.trans a1, b2.trans a2, b3.trans a3, b4.trans a4, b8.trans a8,
      b10.trans a10⟩
  · rw [if_neg ht]
    exact ⟨_, rfl, a1, a2, a3, a4, a8, a10⟩

/-- The exclusive or of two bits, stored in a `uint8_t`, is a bit. -/
theorem to_uint8_xor_bits (a b : Nat) (ha : a ≤ 1) (hb : b ≤ 1) :
    to_uint8 (a ^^^ b) = 0 ∨ to_uint8 (a ^^^ b) = 1 := by
  interval_cases a <;> interval_cases b <;> decide

/-- A bit stored in a `uint8_t` is a bit. -/
theorem to_uint8_le_one (a : Nat) (ha : a ≤ 1) : to_uint8 a = 0 ∨ to_uint8 a = 1 := by
  interval_cases a <;> decide

/-- The entry point on a valid descriptor for which `alloc_vdec` returns a decoder:
the result is the one of `traceback` on a decoder with the fields and the trellis
values of the allocated one. -/
theorem test_conv_decode_run (env : Env) (code : osmo_conv_code) (input : Nat → Int)
    (output : Nat → Nat) (vdec : vdecoder)
    (hv : ¬ (code.N < 2 ∨ code.N > 4 ∨ code.len < 1 ∨ (code.K ≠ 5 ∧ code.K ≠ 7)))
    (ha : alloc_vdec env code = Except.ok (some vdec)) :
    ∃ dec1, test_conv_decode env code input output =
        Except.ok (traceback dec1 output code.term code.len) ∧
      dec1.n = code.N ∧ dec1.k = code.K ∧ dec1.len = vdec.len ∧
      dec1.recursive = conv_code_recursive code ∧
      dec1.trellis.num_states = NUM_STATES code.K ∧
      (∀ s : Nat, (s : Int) < NUM_STATES code.K → dec1.trellis.vals s ≤ 1) := by
  obtain ⟨f1, f2, _, f4, _, f6, _, _, _⟩ := alloc_vdec_fields env code vdec ha
  obtain ⟨dec1, hd, g1, g2, g3, g4, g5, g6⟩ := conv_decode_dec env vdec input code.puncture
    output code.len code.term
  have hN : code.N = 2 ∨ code.N = 3 ∨ code.N = 4 := by omega
  refine ⟨dec1, ?_, g1.trans f1, g2.trans f2, g3, g4.trans f4,
    g5.trans (generate_trellis_num_states env code _ f6), ?_⟩
  · unfold test_conv_decode
    rw [if_neg hv, ha]
    dsimp only [free_vdec]
    rw [hd]
  · intro s hs
    rw [g6, (generate_trellis_some env code _ hN f6).1 s hs]
    exact trellis_val_le code s

/-- C14: output shape.  When every path-memory entry is in `{-1, 0}` (and the
trellis values are bits, as `generate_trellis` makes them), a successful
`traceback` stores a value in `{0, 1}` in each of the `len` cells
`out[0 .. len-1]` and leaves every other cell.  In FLUSH mode the terminal state is
0 and the columns `len .. len'-1` only roll it back (`traceback_tail`); the
decoder of `alloc_vdec` has `len' = len + K - 1` columns in FLUSH mode and `len`
otherwise, and the decoder that `test_conv_decode` hands to `traceback` has its
trellis values in `{0, 1}`. -/
theorem traceback_output_shape (dec : vdecoder) (out : Nat → Nat) (term : osmo_conv_term)
    (L L' : Nat) (hk : dec.k = 5 ∨ dec.k = 7)
    (hns : dec.trellis.num_states = NUM_STATES dec.k)
    (hp : ∀ a, dec.paths_mem a = -1 ∨ dec.paths_mem a = 0)
    (hvals : ∀ s : Nat, (s : Int) < NUM_STATES dec.k → dec.trellis.vals s ≤ 1)
    (hL : L ≤ L') (hlen : dec.len = (L' : Int))
    (hok : (traceback dec out term (L : Int)).1 = 0) :
    (∀ i, i < L → (traceback dec out term (L : Int)).2 i = 0 ∨
      (traceback dec out term (L : Int)).2 i = 1) ∧
    (∀ i, L ≤ i → (traceback dec out term (L : Int)).2 i = out i) ∧
    (term = CONV_TERM_FLUSH → terminal_state dec term = 0 ∧
      traceback dec out term (L : Int) =
        (0, if dec.recursive ≠ 0 then
              _traceback_rec dec (traceback_tail dec 0 (L : Int)) out (L : Int)
            else _traceback dec (traceback_tail dec 0 (L : Int)) out (L : Int))) ∧
    (∀ (env : Env) (code : osmo_conv_code) (vdec : vdecoder) (input : Nat → Int)
      (output : Nat → Nat),
      ¬ (code.N < 2 ∨ code.N > 4 ∨ code.len < 1 ∨ (code.K ≠ 5 ∧ code.K ≠ 7)) →
      alloc_vdec env code = Except.ok (some vdec) →
      vdec.len = (if code.term = CONV_TERM_FLUSH then code.len + code.K - 1 else code.len) ∧
      ∃ dec1, test_conv_decode env code input output =
          Except.ok (traceback dec1 output code.term code.len) ∧
        dec1.k = code.K ∧ dec1.len = vdec.len ∧
        dec1.trellis.num_states = NUM_STATES code.K ∧
        (∀ s : Nat, (s : Int) < NUM_STATES code.K → dec1.trellis.vals s ≤ 1)) := by
  have heq := traceback_ok_eq dec out term (L : Int) hok
  have hterm := terminal_state_lt dec out term (L : Int) hns hok
  have hst : ∀ j, j ≤ L → ((for_down (L : Int) (j : Int) (tb_step dec)
      (traceback_tail dec (terminal_state dec term) (L : Int)) : Nat) : Int) <
      NUM_STATES dec.k := by
    intro j hj
    rw [tb_state_join dec _ L L' j hL hj hlen]
    have h := tb_states_lt dec (terminal_state dec term) L' hk hp hterm (L' - j) (by omega)
    have e : L' - (L' - j) = j := by omega
    rw [e] at h
    exact h
  refine ⟨?_, ?_, ?_, ?_⟩
  · intro i hi
    rw [heq]
    by_cases hr : dec.recursive ≠ 0
    · rw [if_pos hr]
      show _traceback_rec dec _ out (L : Int) i = 0 ∨ _traceback_rec dec _ out (L : Int) i = 1
      rw [_traceback_rec_out, if_pos hi]
      exact to_uint8_xor_bits _ _ (tb_path_bit dec _ _ hp).1 (hvals _ (hst (i + 1) (by omega)))
    · rw [if_neg hr]
      show _traceback dec _ out (L : Int) i = 0 ∨ _traceback dec _ out (L : Int) i = 1
      rw [_traceback_out, if_pos hi]
      exact to_uint8_le_one _ (hvals _ (hst (i + 1) (by omega)))
  · intro i hi
    rw [heq]
    by_cases hr : dec.recursive ≠ 0
    · rw [if_pos hr]
      show _traceback_rec dec _ out (L : Int) i = _
      rw [_traceback_rec_out, if_neg (by omega)]
    · rw [if_neg hr]
      show _traceback dec _ out (L : Int) i = _
      rw [_traceback_out, if_neg (by omega)]
  · intro ht
    have e0 : terminal_state dec term = 0 := by
      unfold terminal_state
      rw [if_neg (not_not.mpr ht)]
    refine ⟨e0, ?_⟩
    rw [heq, e0]
  · intro env code vdec input output hv ha
    obtain ⟨dec1, h1, _, h3, h4, _, h6, h7⟩ := test_conv_decode_run env code input output vdec hv ha
    exact ⟨(alloc_vdec_fields env code vdec ha).2.2.1, dec1, h1, h3, h4, h6, h7⟩

/-- The trellis values of `dec_sample` are bits. -/
theorem dec_sample_vals : ∀ s : Nat, (s : Int) < NUM_STATES dec_sample.k →
    dec_sample.trellis.vals s ≤ 1 :=
  fun _ _ => Nat.and_le_right

/-- Witness of `traceback_output_shape` on `dec_sample`: two bits decoded from three
columns. -/
theorem traceback_output_shape_witness :
    (List.range 3).map
      (traceback dec_sample (fun _ => 7) CONV_TERM_TRUNCATION ((2 : Nat) : Int)).2 = [1, 0, 7] ∧
    ((traceback dec_sample (fun _ => 7) CONV_TERM_TRUNCATION ((2 : Nat) : Int)).2 1 = 0 ∨
      (traceback dec_sample (fun _ => 7) CONV_TERM_TRUNCATION ((2 : Nat) : Int)).2 1 = 1) :=
  ⟨by decide,
    (traceback_output_shape dec_sample (fun _ => 7) CONV_TERM_TRUNCATION 2 3 (Or.inl rfl) rfl
      dec_sample_paths dec_sample_vals (by decide) rfl (by decide)).1 1 (by decide)⟩


/-! ## Traceback against the shift register -/

/-- Exhaustive check for `K = 5`: a register step keeps the state below 16, is
undone by `vstate_lshift` with the bit shifted out, and leaves its input bit at
position `K - 2`. -/
theorem shift_table5 : ∀ s < 16, ∀ b < 2,
    ((s >>> 1) ||| (b <<< 3)) < 16 ∧
    vstate_lshift ((s >>> 1) ||| (b <<< 3)) 5 (((s &&& 1 : Nat) : Nat) : Int) = s ∧
    (((s >>> 1) ||| (b <<< 3)) >>> 3) &&& 1 = b := by
  decide

set_option maxRecDepth 100000 in
/-- Exhaustive check for `K = 7`, as `shift_table5`. -/
theorem shift_table7 : ∀ s < 64, ∀ b < 2,
    ((s >>> 1) ||| (b <<< 5)) < 64 ∧
    vstate_lshift ((s >>> 1) ||| (b <<< 5)) 7 (((s &&& 1 : Nat) : Nat) : Int) = s ∧
    (((s >>> 1) ||| (b <<< 5)) >>> 5) &&& 1 = b := by
  decide

/-- A register step for `K` in {5,7}, from the exhaustive checks. -/
theorem shift_step (K : Int) (hK : K = 5 ∨ K = 7) (s b : Nat) (hs : s < 2 ^ (K - 1).toNat)
    (hb : b ≤ 1) :
    ((s >>> 1) ||| (b <<< (K - 2).toNat)) < 2 ^ (K - 1).toNat ∧
    vstate_lshift ((s >>> 1) ||| (b <<< (K - 2).toNat)) K (((s &&& 1 : Nat) : Nat) : Int) = s ∧
    (((s >>> 1) ||| (b <<< (K - 2).toNat)) >>> (K - 2).toNat) &&& 1 = b := by
  rcases hK with h | h
  · subst h
    exact shift_table5 s hs b (by omega)
  · subst h
    exact shift_table7 s hs b (by omega)

/-- Every state of the register evolution is below `S`. -/
theorem shift_state_lt (K : Int) (hK : K = 5 ∨ K = 7) (s0 : Nat) (b : Nat → Nat) (n : Nat)
    (hs0 : s0 < 2 ^ (K - 1).toNat) (hb : ∀ i, i < n → b i ≤ 1) (i : Nat) (hi : i ≤ n) :
    shift_state K s0 b i < 2 ^ (K - 1).toNat := by
  induction i with
  | zero => exact hs0
  | succ i ih =>
    exact (shift_step K hK _ (b i) (ih (by omega)) (hb i (by omega))).1

/-- A bit converted to `unsigned` and back to `int` is unchanged. -/
theorem to_int_to_unsigned_bit (x : Nat) (hx : x ≤ 1) :
    to_int (to_unsigned ((x : Nat) : Int)) = ((x : Nat) : Int) := by
  interval_cases x <;> decide

/-- C19: traceback inverts the shift-register evolution (non-recursive codes).  For
`K` in {5,7}, a start state `s_0 < S` and bits `b_0 .. b_{n-1}`, let
`s_{i+1} = (s_i >> 1) | (b_i << (K-2))`.  If `paths[i][s_{i+1}] + 1 = s_i & 1` for
every `i < n` and `vals[s] = (s >> (K-2)) & 1`, then `_traceback` started at `s_n`
stores `out[i] = b_i` for every `i < n`, leaves the other cells, and the state it
holds before column `j` is `s_j` for every `j <= n` (it visits `s_n, .., s_0`). -/
theorem traceback_inverts_shift (dec : vdecoder) (out : Nat → Nat) (s0 : Nat) (b : Nat → Nat)
    (n : Nat) (hk : dec.k = 5 ∨ dec.k = 7) (hs0 : s0 < 2 ^ (dec.k - 1).toNat)
    (hb : ∀ i, i < n → b i ≤ 1)
    (hpaths : ∀ i, i < n → dec.paths_mem (dec.paths i + shift_state dec.k s0 b (i + 1)) + 1 =
      (((shift_state dec.k s0 b i &&& 1 : Nat) : Nat) : Int))
    (hvals : ∀ s, dec.trellis.vals s = (s >>> (dec.k - 2).toNat) &&& 1) :
    (∀ i, i < n → _traceback dec (shift_state dec.k s0 b n) out (n : Int) i = b i) ∧
    (∀ i, n ≤ i → _traceback dec (shift_state dec.k s0 b n) out (n : Int) i = out i) ∧
    (∀ j, j ≤ n → for_down (n : Int) (j : Int) (tb_step dec) (shift_state dec.k s0 b n) =
      shift_state dec.k s0 b j) := by
  have hstates : ∀ d, d ≤ n →
      for_down (n : Int) ((n - d : Nat) : Int) (tb_step dec) (shift_state dec.k s0 b n) =
        shift_state dec.k s0 b (n - d) := by
    intro d
    induction d with
    | zero =>
      intro _
      rw [for_down_self _ _ (by omega)]
      rfl
    | succ d ih =>
      intro hd
      have e : (((n - (d + 1) : Nat) : Int) + 1) = ((n - d : Nat) : Int) := by omega
      rw [for_down_pred _ _ (by omega), e, ih (by omega)]
      have e2 : n - d = (n - (d + 1)) + 1 := by omega
      rw [e2]
      unfold tb_step tb_path
      rw [Int.toNat_ofNat, hpaths _ (by omega),
        to_int_to_unsigned_bit _ Nat.and_le_right]
      exact (shift_step dec.k hk _ (b (n - (d + 1)))
        (shift_state_lt dec.k hk s0 b n hs0 hb _ (by omega)) (hb _ (by omega))).2.1
  have hj : ∀ j, j ≤ n → for_down (n : Int) (j : Int) (tb_step dec) (shift_state dec.k s0 b n) =
      shift_state dec.k s0 b j := by
    intro j hj
    have h := hstates (n - j) (by omega)
    have e : n - (n - j) = j := by omega
    rw [e] at h
    exact h
  refine ⟨?_, ?_, hj⟩
  · intro i hi
    rw [_traceback_out, if_pos hi, hj (i + 1) (by omega), hvals]
    have h3 := (shift_step dec.k hk _ (b i)
      (shift_state_lt dec.k hk s0 b n hs0 hb i (by omega)) (hb i hi)).2.2
    show to_uint8 ((((shift_state dec.k s0 b i >>> 1) ||| (b i <<< (dec.k - 2).toNat)) >>>
      (dec.k - 2).toNat) &&& 1) = b i
    rw [h3]
    exact Nat.mod_eq_of_lt (by have := hb i hi; omega)
  · intro i hi
    rw [_traceback_out, if_neg (by omega)]

/-- Witness of `traceback_inverts_shift`: on `dec_shift` the traceback from state 10
gives back the bits `1, 0, 1`. -/
theorem traceback_inverts_shift_witness :
    (List.range 4).map (shift_state dec_shift.k 0 bits_101) = [0, 8, 4, 10] ∧
    (List.range 4).map (_traceback dec_shift (shift_state dec_shift.k 0 bits_101 3)
      (fun _ => 7) ((3 : Nat) : Int)) = [1, 0, 1, 7] ∧
    _traceback dec_shift (shift_state dec_shift.k 0 bits_101 3) (fun _ => 7) ((3 : Nat) : Int) 2 =
      bits_101 2 :=
  ⟨by decide, by decide,
    (traceback_inverts_shift dec_shift (fun _ => 7) 0 bits_101 3 (Or.inl rfl) (by decide)
      (fun i _ => by
        show (if i % 2 = 0 then 1 else 0) ≤ 1
        split <;> omega)
      (fun i hi => by interval_cases i <;> decide)
      (fun _ => rfl)).1 2 (by decide)⟩


/-! ## Table lookups of the trellis construction -/

/-- Exhaustive check of the table row and column of a state for `K = 5`. -/
theorem row_table5 : ∀ s < 16,
    spec_row 5 s < 8 ∧ spec_val 5 s ≤ 1 ∧ (s ^^^ 8) < 16 ∧
    spec_row 5 (s ^^^ 8) = spec_row 5 s ∧ spec_val 5 (s ^^^ 8) = 1 - spec_val 5 s := by
  decide

set_option maxRecDepth 100000 in
/-- Exhaustive check of the table row and column of a state for `K = 7`. -/
theorem row_table7 : ∀ s < 64,
    spec_row 7 s < 32 ∧ spec_val 7 s ≤ 1 ∧ (s ^^^ 32) < 64 ∧
    spec_row 7 (s ^^^ 32) = spec_row 7 s ∧ spec_val 7 (s ^^^ 32) = 1 - spec_val 7 s := by
  decide

/-- Row and column of a state for `K` in {5,7}, from the exhaustive checks. -/
theorem row_table (K : Int) (hK : K = 5 ∨ K = 7) (s : Nat) (hs : s < 2 ^ (K - 1).toNat) :
    spec_row K s < 2 ^ (K - 2).toNat ∧ spec_val K s ≤ 1 ∧
    (s ^^^ 2 ^ (K - 2).toNat) < 2 ^ (K - 1).toNat ∧
    spec_row K (s ^^^ 2 ^ (K - 2).toNat) = spec_row K s ∧
    spec_val K (s ^^^ 2 ^ (K - 2).toNat) = 1 - spec_val K s := by
  rcases hK with h | h
  · subst h
    exact row_table5 s hs
  · subst h
    exact row_table7 s hs

/-- The row index computed by `gen_output` and `gen_recursive_output` is the row of
the specification. -/
theorem row_index_spec (K : Int) (hK : K = 5 ∨ K = 7) (s : Nat) :
    bitswap (vstate_lshift s K 0) (to_unsigned (K - 1)) = spec_row K s := by
  unfold spec_row
  rw [vstate_lshift_zero K s hK, to_unsigned_K_pred K hK]

/-- Function `gen_state_info` reads the table `next_output` at the row and the
column of the specification only. -/
theorem gen_state_info_lookup (code : osmo_conv_code) (s : Nat) (output : Nat → Int)
    (hK : code.K = 5 ∨ code.K = 7) :
    gen_state_info s output code =
      (0, spec_val code.K s,
        unpack_nrz code.N (bitswap (code.next_output (spec_row code.K s) (spec_val code.K s))
          (to_unsigned code.N)) output) := by
  unfold gen_state_info gen_output
  dsimp only
  rw [row_index_spec code.K hK s, to_uint8_bit]
  rfl

/-- Function `gen_recursive_output` reads the tables `next_term_output` and
`next_output` at the row of the specification only. -/
theorem gen_recursive_output_lookup (code : osmo_conv_code) (s : Nat) (pos : Int)
    (hK : code.K = 5 ∨ code.K = 7) :
    gen_recursive_output (vstate_of code s) s code pos =
      (bitswap (code.next_output (spec_row code.K s) (rec_column code s pos))
        (to_unsigned code.N), rec_column code s pos) := by
  unfold gen_recursive_output vstate_of rec_column
  dsimp only
  rw [row_index_spec code.K hK s]
  rfl

/-- The column index of a recursive code is a bit, and the partner state
`s XOR S/2` has the opposite one. -/
theorem rec_column_partner (code : osmo_conv_code) (s : Nat) (pos : Int)
    (hK : code.K = 5 ∨ code.K = 7) (hs : s < 2 ^ (code.K - 1).toNat) :
    rec_column code s pos ≤ 1 ∧
    rec_column code (s ^^^ 2 ^ (code.K - 2).toNat) pos = 1 - rec_column code s pos := by
  obtain ⟨_, hv, _, hrow, hval⟩ := row_table code.K hK s hs
  have hc : (match code.next_term_output with
      | some t => (((((t (spec_row code.K s)) >>> pos.toNat) &&& 0x01 : Nat) : Nat) : Int)
      | none => 0) = 0 ∨
    (match code.next_term_output with
      | some t => (((((t (spec_row code.K s)) >>> pos.toNat) &&& 0x01 : Nat) : Nat) : Int)
      | none => 0) = 1 := by
    cases code.next_term_output with
    | none => exact Or.inl rfl
    | some t =>
      dsimp only
      rw [Nat.and_one_is_mod]
      rcases Nat.mod_two_eq_zero_or_one ((t (spec_row code.K s)) >>> pos.toNat) with h | h
      · rw [h]; exact Or.inl rfl
      · rw [h]; exact Or.inr rfl
  unfold rec_column
  rw [hrow, hval]
  generalize (match code.next_term_output with
    | some t => (((((t (spec_row code.K s)) >>> pos.toNat) &&& 0x01 : Nat) : Nat) : Int)
    | none => 0) = c at hc
  generalize spec_val code.K s = a at hv
  interval_cases a <;> rcases hc with hc | hc <;> subst hc <;> decide

/-- A `find?` only depends on the test at the members of the list. -/
theorem find_congr {α : Type} (p q : α → Bool) (l : List α) (h : ∀ x, x ∈ l → p x = q x) :
    l.find? p = l.find? q := by
  induction l with
  | nil => rfl
  | cons a l ih =>
    rw [List.find?_cons, List.find?_cons, h a (List.mem_cons_self a l),
      ih (fun x hx => h x (List.mem_cons_of_mem a hx))]

/-- The search for the systematic position reads `next_output[j][0]` for the
states `j` below `NUM_STATES(K)` only. -/
theorem recursive_pos_congr (code code2 : osmo_conv_code) (hK2 : code2.K = code.K)
    (hN2 : code2.N = code.N)
    (hagree : ∀ j : Nat, (j : Int) < NUM_STATES code.K →
      code2.next_output j 0 = code.next_output j 0) :
    recursive_pos code2 = recursive_pos code := by
  have hscan : ∀ i, recursive_scan code2 (NUM_STATES code.K) i =
      recursive_scan code (NUM_STATES code.K) i := by
    intro i
    unfold recursive_scan
    rw [find_congr (fun j => ((code2.next_output j 0) >>> i) &&& 0x01 != 0)
      (fun j => ((code.next_output j 0) >>> i) &&& 0x01 != 0)]
    intro j hj
    rw [List.mem_range] at hj
    show (((code2.next_output j 0) >>> i) &&& 0x01 != 0) = _
    rw [hagree j (by omega)]
  unfold recursive_pos
  dsimp only
  rw [hK2, hN2, find_congr (fun i => recursive_scan code2 (NUM_STATES code.K) i ==
      NUM_STATES code.K) (fun i => recursive_scan code (NUM_STATES code.K) i ==
      NUM_STATES code.K)]
  intro i _
  show (recursive_scan code2 (NUM_STATES code.K) i == NUM_STATES code.K) = _
  rw [hscan i]

/-- Half the number of states, for the supported constraint lengths. -/
theorem half_states (K : Int) (hK : K = 5 ∨ K = 7) :
    2 * 2 ^ (K - 2).toNat = 2 ^ (K - 1).toNat ∧
    ((2 ^ (K - 1).toNat : Nat) : Int) = NUM_STATES K := by
  rcases hK with h | h <;> subst h <;> exact ⟨rfl, rfl⟩

/-- C20 (counterexample): the recursive descriptors `code_rec_sys` and `code_rec_hi`
agree on every row below `S/2 = 8` of `next_output` and on `next_term_output`, but
`generate_trellis` succeeds on the first and fails on the second: the trellis
construction of a recursive code also reads rows of the upper half. -/
theorem trellis_reads_upper_rows :
    code_rec_hi.K = code_rec_sys.K ∧ code_rec_hi.N = code_rec_sys.N ∧
    code_rec_hi.next_term_output.isSome = true ∧
    (∀ j v : Nat, j < 8 → code_rec_hi.next_output j v = code_rec_sys.next_output j v) ∧
    (∀ j : Nat, (code_rec_hi.next_term_output.getD (fun _ => 0)) j =
      (code_rec_sys.next_term_output.getD (fun _ => 0)) j) ∧
    (generate_trellis env_idle code_rec_sys).isSome = true ∧
    (generate_trellis env_idle code_rec_hi).isSome = false := by
  refine ⟨rfl, rfl, rfl, ?_, fun _ => rfl, by decide, by decide⟩
  intro j v hj
  show (if j = 15 then 3 else if v = 0 then 1 else 2) = (if v = 0 then 1 else 2)
  rw [if_neg (by omega)]

/-- C20 (amended): table lookups during trellis construction are in bounds.  For `K`
in {5,7} and a state `s < S`, the row index `bitreverse_{K-1}((s << 1) & mask)`
computed by `gen_output` and `gen_recursive_output` for `next_output` and
`next_term_output` is below `S/2`, and the column index is in `{0, 1}`; the states
`s` and `s XOR S/2` read the same row with the opposite column.  The output-word
lookups therefore only read the lower half of the rows: `gen_state_info` and
`gen_recursive_output` give the same result on two descriptors that agree there.
The search for the systematic position of a recursive code reads
`next_output[j][0]` for the states `j < S` and nothing else. -/
theorem trellis_lookups_in_bounds (code : osmo_conv_code) (s : Nat)
    (hK : code.K = 5 ∨ code.K = 7) (hs : s < 2 ^ (code.K - 1).toNat) :
    (2 * 2 ^ (code.K - 2).toNat = 2 ^ (code.K - 1).toNat ∧
      ((2 ^ (code.K - 1).toNat : Nat) : Int) = NUM_STATES code.K) ∧
    (bitswap (vstate_lshift s code.K 0) (to_unsigned (code.K - 1)) = spec_row code.K s ∧
      spec_row code.K s < 2 ^ (code.K - 2).toNat) ∧
    ((∀ out, gen_state_info s out code =
        (0, spec_val code.K s,
          unpack_nrz code.N (bitswap (code.next_output (spec_row code.K s) (spec_val code.K s))
            (to_unsigned code.N)) out)) ∧
      spec_val code.K s ≤ 1) ∧
    (∀ pos, gen_recursive_output (vstate_of code s) s code pos =
        (bitswap (code.next_output (spec_row code.K s) (rec_column code s pos))
          (to_unsigned code.N), rec_column code s pos) ∧
      rec_column code s pos ≤ 1) ∧
    ((s ^^^ 2 ^ (code.K - 2).toNat) < 2 ^ (code.K - 1).toNat ∧
      spec_row code.K (s ^^^ 2 ^ (code.K - 2).toNat) = spec_row code.K s ∧
      spec_val code.K (s ^^^ 2 ^ (code.K - 2).toNat) = 1 - spec_val code.K s ∧
      ∀ pos, rec_column code (s ^^^ 2 ^ (code.K - 2).toNat) pos = 1 - rec_column code s pos) ∧
    (∀ (code2 : osmo_conv_code) (out : Nat → Int), code2.K = code.K → code2.N = code.N →
      (∀ j v : Nat, j < 2 ^ (code.K - 2).toNat → v ≤ 1 →
        code2.next_output j v = code.next_output j v) →
      gen_state_info s out code2 = gen_state_info s out code) ∧
    (∀ (code2 : osmo_conv_code) (t t2 : Nat → Nat) (pos : Int),
      code2.K = code.K → code2.N = code.N →
      code.next_term_output = some t → code2.next_term_output = some t2 →
      (∀ j : Nat, j < 2 ^ (code.K - 2).toNat → t2 j = t j) →
      (∀ j v : Nat, j < 2 ^ (code.K - 2).toNat → v ≤ 1 →
        code2.next_output j v = code.next_output j v) →
      gen_recursive_output (vstate_of code2 s) s code2 pos =
        gen_recursive_output (vstate_of code s) s code pos) ∧
    (∀ code2 : osmo_conv_code, code2.K = code.K → code2.N = code.N →
      (∀ j : Nat, (j : Int) < NUM_STATES code.K →
        code2.next_output j 0 = code.next_output j 0) →
      recursive_pos code2 = recursive_pos code) := by
  obtain ⟨hrow, hval, hp1, hp2, hp3⟩ := row_table code.K hK s hs
  refine ⟨half_states code.K hK, ⟨row_index_spec code.K hK s, hrow⟩,
    ⟨fun out => gen_state_info_lookup code s out hK, hval⟩,
    fun pos => ⟨gen_recursive_output_lookup code s pos hK,
      (rec_column_partner code s pos hK hs).1⟩,
    ⟨hp1, hp2, hp3, fun pos => (rec_column_partner code s pos hK hs).2⟩, ?_, ?_,
    fun code2 h1 h2 h3 => recursive_pos_congr code code2 h1 h2 h3⟩
  · intro code2 out hK2 hN2 hagree
    rw [gen_state_info_lookup code2 s out (by rw [hK2]; exact hK),
      gen_state_info_lookup code s out hK, hK2, hN2, hagree _ _ hrow hval]
  · intro code2 t t2 pos hK2 hN2 ht ht2 hnto hagree
    have hcol : rec_column code2 s pos = rec_column code s pos := by
      unfold rec_column
      rw [hK2, ht, ht2]
      dsimp only
      rw [hnto _ hrow]
    rw [gen_recursive_output_lookup code2 s pos (by rw [hK2]; exact hK),
      gen_recursive_output_lookup code s pos hK, hcol, hK2, hN2,
      hagree _ _ hrow (rec_column_partner code s pos hK hs).1]

/-- Witness of `trellis_lookups_in_bounds`: state 9 of `code_trunc` reads row 4,
column 1, and its partner state 1 reads row 4, column 0. -/
theorem trellis_lookups_in_bounds_witness :
    spec_row code_trunc.K 9 = 4 ∧ spec_val code_trunc.K 9 = 1 ∧
    9 ^^^ 2 ^ (code_trunc.K - 2).toNat = 1 ∧
    spec_row code_trunc.K 9 < 2 ^ (code_trunc.K - 2).toNat ∧
    spec_row code_trunc.K (9 ^^^ 2 ^ (code_trunc.K - 2).toNat) = spec_row code_trunc.K 9 :=
  ⟨by decide, by decide, by decide,
    (trellis_lookups_in_bounds code_trunc 9 (Or.inl rfl) (by decide)).2.1.2,
    (trellis_lookups_in_bounds code_trunc 9 (Or.inl rfl) (by decide)).2.2.2.2.1.2.1⟩


/-! ## Normalization interval and forward pass -/

/-- C17: for every valid pair `K` in {5,7}, `N` in {2,3,4} the normalization
interval `intrvl = floor(32767 / (N*127)) - K` computed by `alloc_vdec` is at least
1, and the initial metric plus `intrvl` columns of maximal growth fits in an
`int16_t`: `127*N*K + intrvl*(127*N) <= 32767`. -/
theorem intrvl_budget (K N : Int) (hK : K = 5 ∨ K = 7) (hN : N = 2 ∨ N = 3 ∨ N = 4) :
    Int.tdiv INT16_MAX (N * INT8_MAX) - K = 32767 / (N * 127) - K ∧
    1 ≤ Int.tdiv INT16_MAX (N * INT8_MAX) - K ∧
    INT8_MAX * N * K + (Int.tdiv INT16_MAX (N * INT8_MAX) - K) * (INT8_MAX * N) ≤ INT16_MAX ∧
    (∀ (env : Env) (code : osmo_conv_code) (dec : vdecoder), code.K = K → code.N = N →
      alloc_vdec env code = Except.ok (some dec) →
      dec.intrvl = Int.tdiv INT16_MAX (N * INT8_MAX) - K ∧ 1 ≤ dec.intrvl ∧
      127 * dec.n * dec.k + dec.intrvl * (127 * dec.n) ≤ 32767) := by
  have h3 : Int.tdiv INT16_MAX (N * INT8_MAX) - K = 32767 / (N * 127) - K ∧
      1 ≤ Int.tdiv INT16_MAX (N * INT8_MAX) - K ∧
      INT8_MAX * N * K + (Int.tdiv INT16_MAX (N * INT8_MAX) - K) * (INT8_MAX * N) ≤
        INT16_MAX := by
    rcases hK with h | h <;> rcases hN with h2 | h2 | h2 <;> subst h <;> subst h2 <;> decide
  refine ⟨h3.1, h3.2.1, h3.2.2, ?_⟩
  intro env code dec hcK hcN ha
  obtain ⟨f1, f2, _, _, f5, _⟩ := alloc_vdec_fields env code dec ha
  rw [hcK, hcN] at f5
  rw [hcN] at f1
  rw [hcK] at f2
  refine ⟨f5, by rw [f5]; exact h3.2.1, ?_⟩
  rw [f5, f1, f2]
  exact h3.2.2

/-- Witness of `intrvl_budget` for `K = 7`, `N = 4`: the interval is 57. -/
theorem intrvl_budget_witness :
    Int.tdiv INT16_MAX (4 * INT8_MAX) - 7 = 57 ∧
    INT8_MAX * 4 * 7 + (Int.tdiv INT16_MAX (4 * INT8_MAX) - 7) * (INT8_MAX * 4) ≤ INT16_MAX :=
  ⟨by decide, (intrvl_budget 7 4 (Or.inr rfl) (Or.inr (Or.inr rfl))).2.2.1⟩

/-- The test `!(i % dec->intrvl)` of the code is the test `i mod intrvl == 0`. -/
theorem norm_test (i : Nat) (m : Int) (hm : 1 ≤ m) :
    (Int.tmod (i : Int) m = 0) ↔ (i % m.toNat = 0) := by
  obtain ⟨k, hk⟩ : ∃ k : Nat, m = (k : Int) := ⟨m.toNat, by omega⟩
  subst hk
  rw [Int.toNat_ofNat, ← Int.ofNat_tmod]
  omega

/-- The kernel call made by the code for column `i` is the call of the
specification. -/
theorem conv_decode_step_spec (seq : Nat → Int) (i : Nat) (dec : vdecoder)
    (hn : 0 ≤ dec.n) (hintr : 1 ≤ dec.intrvl) :
    conv_decode_step seq i dec =
      { dec with
        trellis := { dec.trellis with
          sums := (spec_column dec seq i dec.trellis.sums
            (fun s => dec.paths_mem (dec.paths i + s))).1 },
        paths_mem := fun a => if dec.paths i ≤ a then
            (spec_column dec seq i dec.trellis.sums
              (fun s => dec.paths_mem (dec.paths i + s))).2 (a - dec.paths i)
          else dec.paths_mem a } := by
  have hseq : mem_at seq (dec.n * (i : Int)).toNat = fun j => seq (i * dec.n.toNat + j) := by
    obtain ⟨k, hk⟩ : ∃ k : Nat, dec.n = (k : Int) := ⟨dec.n.toNat, by omega⟩
    rw [hk, Int.toNat_ofNat]
    have e : ((k : Int) * (i : Int)).toNat = i * k := by
      rw [← Nat.cast_mul, Int.toNat_ofNat, Nat.mul_comm]
    rw [e]
    rfl
  have hnorm : (if Int.tmod (i : Int) dec.intrvl = 0 then (1 : Int) else 0) =
      (if i % dec.intrvl.toNat = 0 then 1 else 0) := by
    by_cases h : i % dec.intrvl.toNat = 0
    · rw [if_pos h, if_pos ((norm_test i dec.intrvl hintr).mpr h)]
    · rw [if_neg h, if_neg (fun hc => h ((norm_test i dec.intrvl hintr).mp hc))]
  unfold conv_decode_step spec_column
  dsimp only
  rw [hseq, hnorm]
  rfl

/-- The kernel calls of the columns `0 .. m-1` leave the decoder with the sums and
the path memory of the specification's forward pass. -/
theorem conv_decode_prefix_spec (seq : Nat → Int) (dec : vdecoder) (hn : 0 ≤ dec.n)
    (hintr : 1 ≤ dec.intrvl) (m : Nat) :
    for_up (m : Int) (conv_decode_step seq) dec = forward_pass dec seq m := by
  induction m with
  | zero => rfl
  | succ m ih =>
    rw [Nat.cast_succ, for_up_succ, ih,
      conv_decode_step_spec seq m (forward_pass dec seq m) hn hintr]
    rfl

/-- Function `_conv_decode` is one forward pass over the `len'` columns. -/
theorem _conv_decode_spec (dec : vdecoder) (seq : Nat → Int) (L' : Nat)
    (hlen : dec.len = (L' : Int)) (hn : 0 ≤ dec.n) (hintr : 1 ≤ dec.intrvl) :
    _conv_decode dec seq = forward_pass dec seq L' := by
  unfold _conv_decode
  rw [hlen]
  exact conv_decode_prefix_spec seq dec hn hintr L'

/-- After a forward pass every path column below `m` holds what the kernel call of
that column left in it: a later call does not touch an earlier column. -/
theorem spec_forward_column (dec : vdecoder) (seq : Nat → Int) (ns : Nat)
    (hpaths : dec.paths = fun i => i * ns) (m i s : Nat) (hi : i < m) (hs : s < ns) :
    (spec_forward dec seq m).2 (i * ns + s) =
      (spec_column dec seq i (spec_forward dec seq i).1
        (fun s => (spec_forward dec seq i).2 (i * ns + s))).2 s := by
  induction m with
  | zero => exact absurd hi (Nat.not_lt_zero i)
  | succ m ih =>
    show (if dec.paths m ≤ i * ns + s then _ else _) = _
    rw [hpaths]
    dsimp only
    rcases Nat.lt_or_ge i m with h | h
    · have hlt : i * ns + s < m * ns := by
        calc i * ns + s < i * ns + ns := by omega
          _ = (i + 1) * ns := by ring
          _ ≤ m * ns := Nat.mul_le_mul_right _ (by omega)
      rw [if_neg (by omega)]
      exact ih h
    · have e : i = m := by omega
      subst e
      rw [if_pos (by omega)]
      have e2 : i * ns + s - i * ns = s := by omega
      rw [e2]

/-- C18: forward-pass schedule, with the kernel as an abstract column step.
`conv_decode` resets the decoder, then applies the kernel to the columns
`i = 0 .. len'-1` in order, with the input `seq + N*i`, the trellis outputs, the
current sums, the path column `paths[i]` and `norm` set exactly when
`i mod intrvl = 0` (`spec_forward`).  It does so once for FLUSH and TRUNCATION and
twice for TAIL_BITING, where the second pass starts from the sums (and path
memory) left by the first one; after a pass every path column holds what the
kernel call of that pass left in it, so `traceback` uses the path memory of the
last pass. -/
theorem forward_schedule (env : Env) (dec : vdecoder) (seq : Nat → Int)
    (punc : Option (Nat → Int)) (out : Nat → Nat) (len : Int) (term : osmo_conv_term)
    (L' : Nat) (hlen : dec.len = (L' : Int)) (hn : 0 ≤ dec.n) (hintr : 1 ≤ dec.intrvl) :
    _conv_decode (reset_decoder dec term) (decode_seq env dec seq punc) =
      forward_pass (reset_decoder dec term) (decode_seq env dec seq punc) L' ∧
    (∀ (d : vdecoder) (sq : Nat → Int) (m : Nat),
      (spec_forward d sq (m + 1)).1 =
        (d.metric_func (fun j => sq (m * d.n.toNat + j)) d.trellis.outputs
          (spec_forward d sq m).1 (fun s => (spec_forward d sq m).2 (d.paths m + s))
          (if m % d.intrvl.toNat = 0 then 1 else 0)).1) ∧
    (term ≠ CONV_TERM_TAIL_BITING →
      conv_decode env dec seq punc out len term =
        traceback (forward_pass (reset_decoder dec term) (decode_seq env dec seq punc) L')
          out term len) ∧
    (term = CONV_TERM_TAIL_BITING →
      conv_decode env dec seq punc out len term =
        traceback (forward_pass
          (forward_pass (reset_decoder dec term) (decode_seq env dec seq punc) L')
          (decode_seq env dec seq punc) L') out term len) ∧
    (∀ (d : vdecoder) (sq : Nat → Int),
      spec_forward (forward_pass d sq L') sq 0 =
        ((spec_forward d sq L').1, (spec_forward d sq L').2)) ∧
    (∀ (d : vdecoder) (sq : Nat → Int) (ns i s : Nat), d.paths = (fun i => i * ns) →
      i < L' → s < ns →
      (forward_pass d sq L').paths_mem (i * ns + s) =
        (spec_column d sq i (spec_forward d sq i).1
          (fun s => (spec_forward d sq i).2 (i * ns + s))).2 s) := by
  have hlen0 : (reset_decoder dec term).len = (L' : Int) := hlen
  have hseq : (match punc with
      | some p => (depuncture seq p env.depunc_block
          ((reset_decoder dec term).len * (reset_decoder dec term).n)).2
      | none => seq) = decode_seq env dec seq punc := rfl
  have h1 := _conv_decode_spec (reset_decoder dec term) (decode_seq env dec seq punc) L'
    hlen0 hn hintr
  refine ⟨h1, fun d sq m => rfl, ?_, ?_, fun d sq => rfl, ?_⟩
  · intro ht
    unfold conv_decode
    dsimp only
    rw [hseq, if_neg ht, h1]
  · intro ht
    unfold conv_decode
    dsimp only
    rw [hseq, if_pos ht, h1]
    rw [_conv_decode_spec (forward_pass (reset_decoder dec term) (decode_seq env dec seq punc) L')
      (decode_seq env dec seq punc) L' hlen0 hn hintr]
  · intro d sq ns i s hp hi hs
    exact spec_forward_column d sq ns hp L' i s hi hs

/-- Witness of `forward_schedule` on `dec_probe`: in TAIL_BITING mode the two passes
over the two columns add `1 + 2` to every sum twice. -/
theorem forward_schedule_witness :
    (forward_pass (reset_decoder dec_probe CONV_TERM_TAIL_BITING) (fun j => (j : Int)) 2
      ).trellis.sums 1 = 3 ∧
    (forward_pass (forward_pass (reset_decoder dec_probe CONV_TERM_TAIL_BITING)
      (fun j => (j : Int)) 2) (fun j => (j : Int)) 2).trellis.sums 1 = 6 ∧
    conv_decode env_idle dec_probe (fun j => (j : Int)) none (fun _ => 7) 2
        CONV_TERM_TAIL_BITING =
      traceback (forward_pass (forward_pass (reset_decoder dec_probe CONV_TERM_TAIL_BITING)
        (decode_seq env_idle dec_probe (fun j => (j : Int)) none) 2)
        (decode_seq env_idle dec_probe (fun j => (j : Int)) none) 2) (fun _ => 7)
        CONV_TERM_TAIL_BITING 2 :=
  ⟨by decide, by decide,
    (forward_schedule env_idle dec_probe (fun j => (j : Int)) none (fun _ => 7) 2
      CONV_TERM_TAIL_BITING 2 rfl (by decide) (by decide)).2.2.2.1 rfl⟩


end Viterbi
